import Mathlib

/-!
# Verification of a Huffman-coding implementation

Shallow embedding of the C++ classes `Node` / `Compare` / `huffman_tree`.

Modelling conventions:
* a C++ `char` is an `Int` (signed byte); the newline character is `10`,
  the internal-node sentinel character is `-64`;
* a `Node*` is a `Node` with an explicit `Node.null` constructor;
* `std::map` is a key-sorted association list (`assocFind` / `assocEmplace`
  mirror `find` / `emplace`);
* `std::priority_queue` with the `Compare` functor is a list sorted by
  ascending frequency; `pqPush` inserts a new element after all elements of
  frequency not larger than its own (a deterministic refinement of the
  implementation-defined tie order of the heap);
* a text file is `Option (List Int)`: `none` is an unreadable file, otherwise
  the raw character contents; `getlines` reproduces the `std::getline` loop,
  pairing each extracted line with the value of `file.good()` after the
  extraction (`true` exactly when the line was terminated by a newline).
-/

namespace Huffman

/-- A `Node*` of the C++ code: null, or a node with `character`, `frequency`
and child pointers.  The default constructor produces character `-64`. -/
inductive Node : Type where
  | null : Node
  | node (character : Int) (frequency : Int) (left : Node) (right : Node) : Node
deriving DecidableEq, Repr

/-- `node->character` (junk on null, which the C++ never dereferences). -/
def Node.character : Node → Int
  | .null => 0
  | .node c _ _ _ => c

/-- `node->frequency`. -/
def Node.frequency : Node → Int
  | .null => 0
  | .node _ f _ _ => f

/-- `node->left`. -/
def Node.left : Node → Node
  | .null => .null
  | .node _ _ l _ => l

/-- `node->right`. -/
def Node.right : Node → Node
  | .null => .null
  | .node _ _ _ r => r

/-- `std::map<char, α>::find`, returning the mapped value if the key is
present. -/
def assocFind {α : Type} (m : List (Int × α)) (k : Int) : Option α :=
  match m with
  | [] => none
  | (a, v) :: rest => if k = a then some v else assocFind rest k

/-- `std::map<char, α>::emplace`: insert the pair at its sorted position if
the key is absent, otherwise leave the map unchanged. -/
def assocEmplace {α : Type} (m : List (Int × α)) (k : Int) (v : α) : List (Int × α) :=
  match m with
  | [] => [(k, v)]
  | (a, w) :: rest =>
    if k < a then (k, v) :: (a, w) :: rest
    else if k = a then (a, w) :: rest
    else (a, w) :: assocEmplace rest k v

/-- The `find`-then-`emplace`-or-increment step of `read_file`: a missing
character is inserted with count 1, a present one has its count bumped. -/
def freqInsert (m : List (Int × Int)) (c : Int) : List (Int × Int) :=
  match m with
  | [] => [(c, 1)]
  | (a, v) :: rest =>
    if c < a then (c, 1) :: (a, v) :: rest
    else if c = a then (a, v + 1) :: rest
    else (a, v) :: freqInsert rest c

/-- The `std::getline` loop over the raw file contents: each extracted line
(newlines stripped) is paired with the value of `file.good()` after the
extraction, which is `true` exactly when the line was newline-terminated. -/
def getlines (s : List Int) : List (List Int × Bool) :=
  match s with
  | [] => []
  | c :: rest =>
    if c = 10 then ([], true) :: getlines rest
    else
      match getlines rest with
      | [] => [([c], false)]
      | (l, g) :: ls => (c :: l, g) :: ls

/-- `huffman_tree::read_file`: count every character of every line, then
emplace the newline character with the number of newline-terminated lines
if that number is positive.  An unreadable file yields the empty map. -/
def read_file (file : Option (List Int)) : List (Int × Int) :=
  match file with
  | none => []
  | some content =>
    let ls := getlines content
    let m := ls.foldl (fun m lg => lg.1.foldl freqInsert m) []
    let numLines : Int := (ls.countP (fun lg => lg.2) : Nat)
    if numLines > 0 then assocEmplace m 10 numLines else m

/-- `std::priority_queue::push` under `Compare`: keep the list sorted by
ascending frequency, a new element going after all elements of frequency
not larger than its own. -/
def pqPush (n : Node) : List Node → List Node
  | [] => [n]
  | m :: rest =>
    if n.frequency < m.frequency then n :: m :: rest
    else m :: pqPush n rest

theorem pqPush_length (n : Node) (q : List Node) :
    (pqPush n q).length = q.length + 1 := by
  induction q with
  | nil => rfl
  | cons m rest ih =>
    simp only [pqPush]
    split <;> simp [ih]

/-- One fuelled run of the `while (node_queue.size() > 1)` merge loop of the
constructor: pop the two lowest-frequency nodes, merge them under a fresh
internal node (default character `-64`, frequency the sum, left the first
pop, right the second), and push the result back. -/
def mergeSteps : Nat → List Node → List Node
  | 0, q => q
  | k + 1, q =>
    match q with
    | a :: b :: rest =>
      mergeSteps k (pqPush (Node.node (-64) (a.frequency + b.frequency) a b) rest)
    | q => q

/-- The merge loop itself: every iteration shrinks the queue by one, so
`q.length` rounds of fuel are enough for the loop to reach its exit
condition. -/
def mergeLoop (q : List Node) : List Node := mergeSteps q.length q

/-- `huffman_tree::encode_characters`: record `code` for a leaf (character
`≥ 0`), otherwise recurse left with `code ++ "0"` and right with
`code ++ "1"`, skipping null children. -/
def encode_characters (ec : List (Int × List Char)) (code : List Char) (nd : Node) :
    List (Int × List Char) :=
  match nd with
  | .null => ec
  | .node c _ l r =>
    if 0 ≤ c then assocEmplace ec c code
    else
      let ec1 := if l = Node.null then ec else encode_characters ec (code ++ ['0']) l
      if r = Node.null then ec1 else encode_characters ec1 (code ++ ['1']) r

/-- The member state of a constructed `huffman_tree` object. -/
structure huffman_tree : Type where
  frequencies : List (Int × Int)
  encoded_chars : List (Int × List Char)
  node_queue : List Node
deriving Repr

/-- The `huffman_tree` constructor: read the frequency table, push one leaf
per positive-count character, run the merge loop, then derive the code table
(traversal when the queue is non-empty and there are `≠ 1` characters, the
single code `"0"` when there is exactly one character). -/
def huffman_tree.construct (file : Option (List Int)) : huffman_tree :=
  let frequencies := read_file file
  let q := mergeLoop (frequencies.foldl
      (fun q p => if p.2 > 0 then pqPush (Node.node p.1 p.2 .null .null) q else q) [])
  let e1 : List (Int × List Char) :=
    if frequencies.length ≠ 1 then
      match q with
      | root :: _ => encode_characters [] [] root
      | [] => []
    else []
  let e2 : List (Int × List Char) :=
    if frequencies.length = 1 then
      match frequencies with
      | (c, _) :: _ => assocEmplace e1 c ['0']
      | [] => e1
    else e1
  { frequencies := frequencies, encoded_chars := e2, node_queue := q }

/-- `huffman_tree::get_character_code`: the stored code, or `""` when the
character is absent from the code table. -/
def huffman_tree.get_character_code (t : huffman_tree) (c : Int) : List Char :=
  match assocFind t.encoded_chars c with
  | none => []
  | some w => w

/-- The inner `for` loop of `encode` over one line: concatenate the codes of
the characters, failing (`none`, the C++ early `return ""`) on a character
absent from the code table. -/
def encodeLineChars (ec : List (Int × List Char)) : List Int → Option (List Char)
  | [] => some []
  | c :: rest =>
    match assocFind ec c with
    | none => none
    | some w =>
      match encodeLineChars ec rest with
      | none => none
      | some s => some (w ++ s)

/-- The `while (std::getline(...))` loop of `encode`: encode each line, and
after each newline-terminated line append the newline character's code,
failing if that code is absent. -/
def encodeLines (ec : List (Int × List Char)) : List (List Int × Bool) → Option (List Char)
  | [] => some []
  | (line, good) :: rest =>
    match encodeLineChars ec line with
    | none => none
    | some s1 =>
      if good then
        match assocFind ec 10 with
        | none => none
        | some nl =>
          match encodeLines ec rest with
          | none => none
          | some s2 => some (s1 ++ nl ++ s2)
      else
        match encodeLines ec rest with
        | none => none
        | some s2 => some (s1 ++ s2)

/-- `huffman_tree::encode`: empty result for an unreadable file, otherwise
the line-by-line encoding with `""` on any failure. -/
def huffman_tree.encode (t : huffman_tree) (file : Option (List Int)) : List Char :=
  match file with
  | none => []
  | some content =>
    match encodeLines t.encoded_chars (getlines content) with
    | none => []
    | some s => s

/-- Result of the inner traversal loop of `decode`: either the loop exited
with the current node and the remaining input, or a character other than
`'0'`/`'1'` was read (the C++ early `return ""`). -/
inductive InnerRes : Type where
  | ok (nd : Node) (rest : List Char) : InnerRes
  | bad : InnerRes
deriving DecidableEq, Repr

/-- The inner `while` loop of `decode`: while the node is non-null, has a
negative character and input remains, consume one character — `'0'` descends
left, `'1'` descends right, anything else fails. -/
def decodeInner (nd : Node) (s : List Char) : InnerRes :=
  match nd with
  | .null => .ok .null s
  | .node c f l r =>
    if c < 0 then
      match s with
      | [] => .ok (.node c f l r) []
      | b :: rest =>
        if b = '0' then decodeInner l rest
        else if b = '1' then decodeInner r rest
        else .bad
    else .ok (.node c f l r) s

/-- The outer `while (i < size)` loop of `decode` for the multi-character
case, fuelled: run the inner loop from the root, fail on a null node,
otherwise append the reached node's character and continue on the remaining
input.  Exhausted fuel with input remaining models the C++ loop failing to
advance, which never happens on the internal-rooted trees this class
builds: each iteration then consumes at least one character, so the
`s.length` rounds of fuel given by `decodeLoop` are enough. -/
def decodeSteps (root : Node) : Nat → List Char → Option (List Int)
  | _, [] => some []
  | 0, _ :: _ => none
  | k + 1, b :: s =>
    match decodeInner root (b :: s) with
    | .bad => none
    | .ok .null _ => none
    | .ok (.node c _ _ _) rest =>
      match decodeSteps root k rest with
      | none => none
      | some out => some (c :: out)

/-- The outer `while (i < size)` loop of `decode`. -/
def decodeLoop (root : Node) (s : List Char) : Option (List Int) :=
  decodeSteps root s.length s

/-- The `frequencies.size() == 1` loop of `decode`: every `'0'` emits the
sole character, anything else fails. -/
def decodeSingle (c : Int) : List Char → Option (List Int)
  | [] => some []
  | b :: rest =>
    if b = '0' then
      match decodeSingle c rest with
      | none => none
      | some out => some (c :: out)
    else none

/-- `huffman_tree::decode`: traversal from `node_queue.top()` when more than
one character was observed, the single-character loop when exactly one,
`""` when none.  (`top()` on an empty queue is undefined behaviour in C++;
after construction the queue is non-empty whenever `frequencies` is.) -/
def huffman_tree.decode (t : huffman_tree) (s : List Char) : List Int :=
  if t.frequencies.length > 1 then
    match t.node_queue with
    | [] => []
    | root :: _ =>
      match decodeLoop root s with
      | none => []
      | some out => out
  else if t.frequencies.length = 1 then
    match t.frequencies with
    | (c, _) :: _ =>
      match decodeSingle c s with
      | none => []
      | some out => out
    | [] => []
  else []

/-! ## Sorted association maps (the `std::map` representation invariant) -/

/-- The `std::map` representation invariant: keys strictly increasing. -/
def mapSorted {α : Type} : List (Int × α) → Prop
  | [] => True
  | p :: rest => (∀ q ∈ rest, p.1 < q.1) ∧ mapSorted rest

theorem assocFind_eq_none_of_lt {α : Type} (m : List (Int × α)) (k : Int)
    (h : ∀ p ∈ m, k < p.1) : assocFind m k = none := by
  induction m with
  | nil => rfl
  | cons p rest ih =>
    obtain ⟨a, v⟩ := p
    have hka : k < a := h (a, v) (by simp)
    simp only [assocFind]
    rw [if_neg (by omega)]
    exact ih (fun q hq => h q (List.mem_cons_of_mem _ hq))

theorem mem_assocEmplace {α : Type} (m : List (Int × α)) (k : Int) (v : α)
    (p : Int × α) (hp : p ∈ assocEmplace m k v) : p ∈ m ∨ p = (k, v) := by
  induction m with
  | nil =>
    simp only [assocEmplace] at hp
    rw [List.mem_singleton] at hp
    exact Or.inr hp
  | cons q rest ih =>
    obtain ⟨a, w⟩ := q
    simp only [assocEmplace] at hp
    split at hp
    · rw [List.mem_cons] at hp
      rcases hp with h | h
      · exact Or.inr h
      · exact Or.inl h
    · split at hp
      · exact Or.inl hp
      · rw [List.mem_cons] at hp
        rcases hp with h | h
        · exact Or.inl (by rw [List.mem_cons]; exact Or.inl h)
        · rcases ih h with h' | h'
          · exact Or.inl (List.mem_cons_of_mem _ h')
          · exact Or.inr h'

theorem assocEmplace_sorted {α : Type} (m : List (Int × α)) (k : Int) (v : α)
    (hm : mapSorted m) : mapSorted (assocEmplace m k v) := by
  induction m with
  | nil => exact ⟨by simp, trivial⟩
  | cons q rest ih =>
    obtain ⟨a, w⟩ := q
    obtain ⟨ha, hrest⟩ := hm
    simp only [assocEmplace]
    split
    · refine ⟨?_, ha, hrest⟩
      intro p hp
      rw [List.mem_cons] at hp
      rcases hp with h | h
      · subst h; simpa using ‹k < a›
      · have := ha p h; simp only at this ⊢; omega
    · split
      · exact ⟨ha, hrest⟩
      · refine ⟨?_, ih hrest⟩
        intro p hp
        rcases mem_assocEmplace rest k v p hp with h | h
        · exact ha p h
        · subst h; simp only; omega

theorem assocFind_assocEmplace {α : Type} (m : List (Int × α)) (k : Int) (v : α)
    (x : Int) (hm : mapSorted m) :
    assocFind (assocEmplace m k v) x =
      if x = k then some ((assocFind m k).getD v) else assocFind m x := by
  induction m with
  | nil =>
    simp only [assocEmplace, assocFind]
    by_cases hx : x = k <;> simp [hx]
  | cons q rest ih =>
    obtain ⟨a, w⟩ := q
    obtain ⟨ha, hrest⟩ := hm
    simp only [assocEmplace]
    split
    · -- k < a : inserted in front
      have hk : assocFind ((a, w) :: rest) k = none := by
        apply assocFind_eq_none_of_lt
        intro p hp
        rw [List.mem_cons] at hp
        rcases hp with h | h
        · subst h; simpa using ‹k < a›
        · have := ha p h; simp only at this ⊢; omega
      by_cases hx : x = k
      · subst hx
        simp only [assocFind] at hk
        simp only [assocFind, if_pos rfl, hk]
        simp
      · simp only [assocFind, if_neg hx]
    · split
      · -- k = a : map unchanged
        subst ‹k = a›
        by_cases hx : x = k
        · subst hx
          simp [assocFind]
        · simp [assocFind, hx]
      · -- a < k : recurse
        have hka : ¬ k = a := by assumption
        by_cases hx : x = a
        · subst hx
          rw [if_neg (by omega)]
          simp [assocFind]
        · simp only [assocFind, if_neg hx, if_neg hka]
          rw [ih hrest]

theorem mem_freqInsert (m : List (Int × Int)) (c : Int) (p : Int × Int)
    (hp : p ∈ freqInsert m c) : (∃ q ∈ m, p.1 = q.1) ∨ p.1 = c := by
  induction m with
  | nil =>
    simp only [freqInsert] at hp
    rw [List.mem_singleton] at hp
    subst hp; exact Or.inr rfl
  | cons q rest ih =>
    obtain ⟨a, w⟩ := q
    simp only [freqInsert] at hp
    split at hp
    · rw [List.mem_cons] at hp
      rcases hp with h | h
      · subst h; exact Or.inr rfl
      · exact Or.inl ⟨p, h, rfl⟩
    · split at hp
      · rw [List.mem_cons] at hp
        rcases hp with h | h
        · subst h; left; exact ⟨(a, w), by simp⟩
        · exact Or.inl ⟨p, List.mem_cons_of_mem _ h, rfl⟩
      · rw [List.mem_cons] at hp
        rcases hp with h | h
        · subst h; left; exact ⟨(a, w), by simp⟩
        · rcases ih h with ⟨q', hq', hq⟩ | h'
          · exact Or.inl ⟨q', List.mem_cons_of_mem _ hq', hq⟩
          · exact Or.inr h'

theorem freqInsert_sorted (m : List (Int × Int)) (c : Int)
    (hm : mapSorted m) : mapSorted (freqInsert m c) := by
  induction m with
  | nil => exact ⟨by simp, trivial⟩
  | cons q rest ih =>
    obtain ⟨a, w⟩ := q
    obtain ⟨ha, hrest⟩ := hm
    simp only [freqInsert]
    split
    · refine ⟨?_, ha, hrest⟩
      intro p hp
      rw [List.mem_cons] at hp
      rcases hp with h | h
      · subst h; simpa using ‹c < a›
      · have := ha p h; simp only at this ⊢; omega
    · split
      · exact ⟨ha, hrest⟩
      · refine ⟨?_, ih hrest⟩
        intro p hp
        rcases mem_freqInsert rest c p hp with ⟨q', hq', hq⟩ | h
        · have := ha q' hq'; simp only at this ⊢; omega
        · simp only at h ⊢; omega

theorem assocFind_freqInsert (m : List (Int × Int)) (c : Int) (x : Int)
    (hm : mapSorted m) :
    assocFind (freqInsert m c) x =
      if x = c then some ((assocFind m c).getD 0 + 1) else assocFind m x := by
  induction m with
  | nil =>
    simp only [freqInsert, assocFind]
    by_cases hx : x = c <;> simp [hx]
  | cons q rest ih =>
    obtain ⟨a, w⟩ := q
    obtain ⟨ha, hrest⟩ := hm
    simp only [freqInsert]
    split
    · -- c < a
      have hc : assocFind ((a, w) :: rest) c = none := by
        apply assocFind_eq_none_of_lt
        intro p hp
        rw [List.mem_cons] at hp
        rcases hp with h | h
        · subst h; simpa using ‹c < a›
        · have := ha p h; simp only at this ⊢; omega
      by_cases hx : x = c
      · subst hx
        simp only [assocFind] at hc
        simp only [assocFind, if_pos rfl, hc]
        simp
      · simp only [assocFind, if_neg hx]
    · split
      · -- c = a
        subst ‹c = a›
        by_cases hx : x = c
        · subst hx
          simp [assocFind]
        · simp [assocFind, hx]
      · -- a < c
        have hca : ¬ c = a := by assumption
        by_cases hx : x = a
        · subst hx
          rw [if_neg (by omega)]
          simp [assocFind]
        · simp only [assocFind, if_neg hx, if_neg hca]
          rw [ih hrest]

/-! ## Lines of a file -/

/-- Reassemble the raw file contents from the `getline` view: each line
contributes its characters, plus a newline when it was newline-terminated. -/
def joinLines : List (List Int × Bool) → List Int
  | [] => []
  | (l, g) :: rest => l ++ (if g then [10] else []) ++ joinLines rest

/-- Number of newline-terminated lines (the `numLines` counter). -/
def goodLines (ls : List (List Int × Bool)) : Nat :=
  ls.countP (fun lg => lg.2)

/-- Total number of occurrences of `x` across the lines. -/
def lineOcc (ls : List (List Int × Bool)) (x : Int) : Nat :=
  (ls.map (fun lg => lg.1.count x)).sum

theorem getlines_nil_iff (s : List Int) : getlines s = [] ↔ s = [] := by
  constructor
  · intro h
    cases s with
    | nil => rfl
    | cons c rest =>
      simp only [getlines] at h
      split at h
      · simp at h
      · split at h <;> simp_all
  · intro h
    subst h
    rfl

theorem joinLines_getlines (s : List Int) : joinLines (getlines s) = s := by
  induction s with
  | nil => rfl
  | cons c rest ih =>
    by_cases hc : c = 10
    · subst hc
      simp only [getlines, if_pos rfl, joinLines]
      simp [ih]
    · simp only [getlines, if_neg hc]
      cases hgl : getlines rest with
      | nil =>
        have : rest = [] := (getlines_nil_iff rest).1 hgl
        subst this
        simp [joinLines]
      | cons p ls =>
        obtain ⟨l, g⟩ := p
        rw [hgl] at ih
        simp only [joinLines] at ih ⊢
        rw [← ih]
        simp

theorem getlines_no_newline (s : List Int) (lg : List Int × Bool)
    (h : lg ∈ getlines s) : 10 ∉ lg.1 := by
  induction s generalizing lg with
  | nil => simp [getlines] at h
  | cons c rest ih =>
    by_cases hc : c = 10
    · subst hc
      simp only [getlines, eq_self_iff_true, if_true] at h
      rw [List.mem_cons] at h
      rcases h with h | h
      · subst h; simp
      · exact ih lg h
    · simp only [getlines, if_neg hc] at h
      cases hgl : getlines rest with
      | nil =>
        rw [hgl] at h
        simp only at h
        rw [List.mem_singleton] at h
        subst h
        simp only [List.mem_singleton]
        omega
      | cons p ls =>
        obtain ⟨l, g⟩ := p
        rw [hgl] at h
        simp only at h
        rw [List.mem_cons] at h
        rcases h with h | h
        · subst h
          have hl : 10 ∉ l := by
            have := ih (l, g) (by rw [hgl]; simp)
            simpa using this
          simp only []
          rw [List.mem_cons]
          push_neg
          exact ⟨fun he => hc he.symm, hl⟩
        · exact ih lg (by rw [hgl]; exact List.mem_cons_of_mem _ h)

theorem count_joinLines (ls : List (List Int × Bool)) (x : Int) :
    (joinLines ls).count x =
      lineOcc ls x + (if x = 10 then goodLines ls else 0) := by
  induction ls with
  | nil => simp [joinLines, lineOcc, goodLines]
  | cons lg rest ih =>
    obtain ⟨l, g⟩ := lg
    simp only [joinLines, lineOcc, goodLines] at ih ⊢
    rw [List.count_append, List.count_append, ih]
    cases g <;> by_cases hx : x = 10 <;>
      simp [hx, List.countP_cons] <;> omega

/-! ## Characterisation of `read_file` -/

theorem assocFind_of_mem {α : Type} (m : List (Int × α)) (p : Int × α)
    (hm : mapSorted m) (hp : p ∈ m) : assocFind m p.1 = some p.2 := by
  induction m with
  | nil => simp at hp
  | cons q rest ih =>
    obtain ⟨a, v⟩ := q
    obtain ⟨ha, hrest⟩ := hm
    rw [List.mem_cons] at hp
    rcases hp with h | h
    · subst h
      simp [assocFind]
    · have : a < p.1 := ha p h
      simp only [assocFind]
      rw [if_neg (by omega)]
      exact ih hrest h

theorem mem_of_assocFind {α : Type} (m : List (Int × α)) (k : Int) (v : α)
    (h : assocFind m k = some v) : (k, v) ∈ m := by
  induction m with
  | nil => simp [assocFind] at h
  | cons q rest ih =>
    obtain ⟨a, w⟩ := q
    simp only [assocFind] at h
    split at h
    · subst ‹k = a›
      rw [Option.some_inj] at h
      subst h
      simp
    · exact List.mem_cons_of_mem _ (ih h)

theorem foldl_freqInsert_sorted (l : List Int) (m : List (Int × Int))
    (hm : mapSorted m) : mapSorted (l.foldl freqInsert m) := by
  induction l generalizing m with
  | nil => exact hm
  | cons c rest ih =>
    simp only [List.foldl_cons]
    exact ih _ (freqInsert_sorted m c hm)

theorem assocFind_foldl_freqInsert (l : List Int) (m : List (Int × Int)) (x : Int)
    (hm : mapSorted m) :
    assocFind (l.foldl freqInsert m) x =
      match assocFind m x with
      | some v => some (v + (l.count x : Int))
      | none => if 0 < l.count x then some ((l.count x : Int)) else none := by
  induction l generalizing m with
  | nil =>
    cases h : assocFind m x <;> simp [h]
  | cons c rest ih =>
    simp only [List.foldl_cons]
    rw [ih _ (freqInsert_sorted m c hm)]
    rw [assocFind_freqInsert m c x hm]
    by_cases hx : x = c
    · subst hx
      rw [if_pos rfl]
      cases h : assocFind m x with
      | some v =>
        simp only [h, Option.getD_some, List.count_cons_self]
        push_cast
        ring_nf
      | none =>
        simp only [h, Option.getD_none, List.count_cons_self]
        rw [if_pos (by omega), Option.some_inj]
        push_cast
        ring
    · rw [if_neg hx]
      cases h : assocFind m x with
      | some v =>
        simp only [h]
        rw [List.count_cons_of_ne hx]
      | none =>
        simp only [h]
        rw [List.count_cons_of_ne hx]

theorem foldl_lines_sorted (ls : List (List Int × Bool)) (m : List (Int × Int))
    (hm : mapSorted m) :
    mapSorted (ls.foldl (fun m lg => lg.1.foldl freqInsert m) m) := by
  induction ls generalizing m with
  | nil => exact hm
  | cons lg rest ih =>
    simp only [List.foldl_cons]
    exact ih _ (foldl_freqInsert_sorted lg.1 m hm)

theorem assocFind_foldl_lines (ls : List (List Int × Bool)) (m : List (Int × Int))
    (x : Int) (hm : mapSorted m) :
    assocFind (ls.foldl (fun m lg => lg.1.foldl freqInsert m) m) x =
      match assocFind m x with
      | some v => some (v + (lineOcc ls x : Int))
      | none => if 0 < lineOcc ls x then some ((lineOcc ls x : Int)) else none := by
  induction ls generalizing m with
  | nil =>
    cases h : assocFind m x <;> simp [h, lineOcc]
  | cons lg rest ih =>
    simp only [List.foldl_cons]
    rw [ih _ (foldl_freqInsert_sorted lg.1 m hm)]
    rw [assocFind_foldl_freqInsert lg.1 m x hm]
    have hocc : lineOcc (lg :: rest) x = lg.1.count x + lineOcc rest x := by
      simp [lineOcc]
    cases h : assocFind m x with
    | some v =>
      simp only [h, hocc]
      push_cast
      ring_nf
    | none =>
      simp only [h]
      by_cases h1 : 0 < lg.1.count x
      · rw [if_pos h1]
        simp only [hocc]
        have : 0 < lg.1.count x + lineOcc rest x := by omega
        rw [if_pos this]
        push_cast
        ring_nf
      · rw [if_neg h1]
        have h10 : lg.1.count x = 0 := by omega
        simp only [hocc, h10]
        simp

theorem lineOcc_getlines_ten (s : List Int) : lineOcc (getlines s) 10 = 0 := by
  rw [lineOcc]
  rw [List.sum_eq_zero]
  intro n hn
  rcases List.mem_map.1 hn with ⟨lg, hlg, hc⟩
  have := getlines_no_newline s lg hlg
  rw [← hc]
  exact List.count_eq_zero.2 this

theorem read_file_sorted (file : Option (List Int)) :
    mapSorted (read_file file) := by
  cases file with
  | none => trivial
  | some content =>
    simp only [read_file]
    have hs : mapSorted ((getlines content).foldl
        (fun m lg => lg.1.foldl freqInsert m) []) :=
      foldl_lines_sorted _ [] trivial
    split
    · exact assocEmplace_sorted _ 10 _ hs
    · exact hs

theorem read_file_find (content : List Int) (x : Int) :
    assocFind (read_file (some content)) x =
      if x = 10 then
        (if 0 < goodLines (getlines content)
          then some ((goodLines (getlines content) : Int)) else none)
      else
        (if 0 < lineOcc (getlines content) x
          then some ((lineOcc (getlines content) x : Int)) else none) := by
  simp only [read_file]
  have hs : mapSorted ((getlines content).foldl
      (fun m lg => lg.1.foldl freqInsert m) []) :=
    foldl_lines_sorted _ [] trivial
  have hfind : ∀ y, assocFind ((getlines content).foldl
      (fun m lg => lg.1.foldl freqInsert m) []) y =
      if 0 < lineOcc (getlines content) y
        then some ((lineOcc (getlines content) y : Int)) else none := by
    intro y
    rw [assocFind_foldl_lines _ [] y trivial]
    rfl
  have hten : assocFind ((getlines content).foldl
      (fun m lg => lg.1.foldl freqInsert m) []) 10 = none := by
    rw [hfind 10, lineOcc_getlines_ten]
    simp
  split
  · -- 0 < numLines : newline emplaced
    rename_i hpos
    rw [assocFind_assocEmplace _ 10 _ x hs]
    by_cases hx : x = 10
    · subst hx
      rw [if_pos rfl, if_pos rfl, hten]
      simp only [Option.getD_none]
      have hg : 0 < goodLines (getlines content) := by
        simp only [goodLines]
        omega
      rw [if_pos hg]
      rfl
    · rw [if_neg hx, if_neg hx, hfind x]
  · -- numLines = 0
    rename_i hzero
    rw [hfind x]
    by_cases hx : x = 10
    · subst hx
      have h0 : goodLines (getlines content) = 0 := by
        simp only [goodLines]
        omega
      rw [lineOcc_getlines_ten, if_pos rfl, h0]
    · rw [if_neg hx]

theorem read_file_pos (file : Option (List Int)) (p : Int × Int)
    (hp : p ∈ read_file file) : 1 ≤ p.2 := by
  cases file with
  | none => simp [read_file] at hp
  | some content =>
    have hfind := assocFind_of_mem _ p (read_file_sorted (some content)) hp
    rw [read_file_find content p.1] at hfind
    split at hfind
    · split at hfind
      · rw [Option.some_inj] at hfind
        rename_i hg
        omega
      · simp at hfind
    · split at hfind
      · rw [Option.some_inj] at hfind
        rename_i hg
        omega
      · simp at hfind

/-! ## The priority queue and the merge loop -/

theorem mem_pqPush (n : Node) (q : List Node) (m : Node) :
    m ∈ pqPush n q ↔ m = n ∨ m ∈ q := by
  induction q with
  | nil => simp [pqPush]
  | cons p rest ih =>
    simp only [pqPush]
    split
    · simp [List.mem_cons]
    · rw [List.mem_cons, ih, List.mem_cons]
      tauto

theorem pqPush_freqSum (n : Node) (q : List Node) :
    ((pqPush n q).map Node.frequency).sum =
      n.frequency + (q.map Node.frequency).sum := by
  induction q with
  | nil => simp [pqPush]
  | cons p rest ih =>
    simp only [pqPush]
    split
    · simp
    · simp only [List.map_cons, List.sum_cons, ih]
      ring

/-- The queue invariant: ascending frequencies (head is `top()`, the
minimum). -/
def qSorted : List Node → Prop
  | [] => True
  | n :: rest => (∀ m ∈ rest, n.frequency ≤ m.frequency) ∧ qSorted rest

theorem pqPush_qSorted (n : Node) (q : List Node) (hq : qSorted q) :
    qSorted (pqPush n q) := by
  induction q with
  | nil => exact ⟨by simp, trivial⟩
  | cons m rest ih =>
    obtain ⟨hm, hrest⟩ := hq
    simp only [pqPush]
    split
    · refine ⟨?_, hm, hrest⟩
      intro p hp
      rw [List.mem_cons] at hp
      rcases hp with h | h
      · subst h; omega
      · have := hm p h; omega
    · rename_i hnm
      refine ⟨?_, ih hrest⟩
      intro p hp
      rw [mem_pqPush] at hp
      rcases hp with h | h
      · subst h; omega
      · exact hm p h

theorem mergeLoop_nil : mergeLoop [] = [] := rfl

theorem mergeLoop_single (a : Node) : mergeLoop [a] = [a] := rfl

theorem mergeLoop_cons₂ (a b : Node) (rest : List Node) :
    mergeLoop (a :: b :: rest) =
      mergeLoop (pqPush (Node.node (-64) (a.frequency + b.frequency) a b) rest) := by
  simp only [mergeLoop, pqPush_length, List.length_cons]
  rfl

theorem mergeLoop_length_aux (k : Nat) :
    ∀ q : List Node, q.length ≤ k → q ≠ [] → (mergeLoop q).length = 1 := by
  induction k with
  | zero =>
    intro q hq hne
    cases q with
    | nil => exact absurd rfl hne
    | cons a rest => simp at hq
  | succ k ih =>
    intro q hq hne
    match q with
    | [] => exact absurd rfl hne
    | [a] => rw [mergeLoop_single]; rfl
    | a :: b :: rest =>
      rw [mergeLoop_cons₂]
      apply ih
      · rw [pqPush_length]
        simp only [List.length_cons] at hq
        omega
      · intro h
        have := congrArg List.length h
        rw [pqPush_length] at this
        simp at this

theorem mergeLoop_length_one (q : List Node) (hne : q ≠ []) :
    (mergeLoop q).length = 1 :=
  mergeLoop_length_aux q.length q le_rfl hne

theorem mergeLoop_freqSum_aux (k : Nat) :
    ∀ q : List Node, q.length ≤ k →
      ((mergeLoop q).map Node.frequency).sum = (q.map Node.frequency).sum := by
  induction k with
  | zero =>
    intro q hq
    cases q with
    | nil => rw [mergeLoop_nil]
    | cons a rest => simp at hq
  | succ k ih =>
    intro q hq
    match q with
    | [] => rw [mergeLoop_nil]
    | [a] => rw [mergeLoop_single]
    | a :: b :: rest =>
      rw [mergeLoop_cons₂]
      rw [ih _ (by rw [pqPush_length]; simp only [List.length_cons] at hq; omega)]
      rw [pqPush_freqSum]
      simp only [Node.frequency, List.map_cons, List.sum_cons]
      ring

theorem mergeLoop_freqSum (q : List Node) :
    ((mergeLoop q).map Node.frequency).sum = (q.map Node.frequency).sum :=
  mergeLoop_freqSum_aux q.length q le_rfl

/-- The characters stored at the leaves of a (sub)tree, in traversal order;
a node with character `≥ 0` is a leaf for both `encode_characters` and
`decode`. -/
def leafChars : Node → List Int
  | .null => []
  | .node c _ l r => if 0 ≤ c then [c] else leafChars l ++ leafChars r

/-- Well-formedness of the trees this class builds: every node is a leaf
(character `≥ 0`) or an internal node (character `< 0`) with two non-null
well-formed children. -/
inductive Proper : Node → Prop where
  | leaf : ∀ c f l r, 0 ≤ c → Proper (.node c f l r)
  | internal : ∀ c f l r, c < 0 → Proper l → Proper r → Proper (.node c f l r)

theorem Proper.ne_null {n : Node} (h : Proper n) : n ≠ Node.null := by
  cases h <;> intro hE <;> exact Node.noConfusion hE

theorem mergeLoop_closed_aux (P : Node → Prop)
    (hmerge : ∀ a b, P a → P b →
      P (Node.node (-64) (a.frequency + b.frequency) a b))
    (k : Nat) :
    ∀ q : List Node, q.length ≤ k → (∀ n ∈ q, P n) →
      ∀ n ∈ mergeLoop q, P n := by
  induction k with
  | zero =>
    intro q hq hP n hn
    cases q with
    | nil => rw [mergeLoop_nil] at hn; simp at hn
    | cons a rest => simp at hq
  | succ k ih =>
    intro q hq hP n hn
    match q with
    | [] => rw [mergeLoop_nil] at hn; simp at hn
    | [a] =>
      rw [mergeLoop_single] at hn
      rw [List.mem_singleton] at hn
      subst hn
      exact hP n (by simp)
    | a :: b :: rest =>
      rw [mergeLoop_cons₂] at hn
      refine ih _ ?_ ?_ n hn
      · rw [pqPush_length]
        simp only [List.length_cons] at hq
        omega
      · intro m hm
        rw [mem_pqPush] at hm
        rcases hm with h | h
        · subst h
          exact hmerge a b (hP a (by simp)) (hP b (by simp))
        · exact hP m (by simp [h])

theorem mergeLoop_closed (P : Node → Prop)
    (hmerge : ∀ a b, P a → P b →
      P (Node.node (-64) (a.frequency + b.frequency) a b))
    (q : List Node) (hP : ∀ n ∈ q, P n) : ∀ n ∈ mergeLoop q, P n :=
  mergeLoop_closed_aux P hmerge q.length q le_rfl hP

/-- A character occurs in a leaf of some queue node. -/
def qLeafMem (q : List Node) (x : Int) : Prop :=
  ∃ n ∈ q, x ∈ leafChars n

theorem mergeLoop_qLeafMem_aux (k : Nat) :
    ∀ q : List Node, q.length ≤ k → ∀ x,
      (qLeafMem (mergeLoop q) x ↔ qLeafMem q x) := by
  induction k with
  | zero =>
    intro q hq x
    cases q with
    | nil => rw [mergeLoop_nil]
    | cons a rest => simp at hq
  | succ k ih =>
    intro q hq x
    match q with
    | [] => rw [mergeLoop_nil]
    | [a] => rw [mergeLoop_single]
    | a :: b :: rest =>
      rw [mergeLoop_cons₂]
      rw [ih _ (by rw [pqPush_length]; simp only [List.length_cons] at hq; omega)]
      constructor
      · rintro ⟨n, hn, hx⟩
        rw [mem_pqPush] at hn
        rcases hn with h | h
        · subst h
          simp only [leafChars] at hx
          rw [if_neg (by omega)] at hx
          rw [List.mem_append] at hx
          rcases hx with h | h
          · exact ⟨a, by simp, h⟩
          · exact ⟨b, by simp, h⟩
        · exact ⟨n, by simp [h], hx⟩
      · rintro ⟨n, hn, hx⟩
        rw [List.mem_cons, List.mem_cons] at hn
        rcases hn with h | h | h
        · subst h
          refine ⟨Node.node (-64) (n.frequency + b.frequency) n b, ?_, ?_⟩
          · rw [mem_pqPush]; exact Or.inl rfl
          · simp only [leafChars]
            rw [if_neg (by omega), List.mem_append]
            exact Or.inl hx
        · subst h
          refine ⟨Node.node (-64) (a.frequency + n.frequency) a n, ?_, ?_⟩
          · rw [mem_pqPush]; exact Or.inl rfl
          · simp only [leafChars]
            rw [if_neg (by omega), List.mem_append]
            exact Or.inr hx
        · exact ⟨n, by rw [mem_pqPush]; exact Or.inr h, hx⟩

theorem mergeLoop_qLeafMem (q : List Node) (x : Int) :
    qLeafMem (mergeLoop q) x ↔ qLeafMem q x :=
  mergeLoop_qLeafMem_aux q.length q le_rfl x

theorem mergeLoop_root_internal_aux (k : Nat) :
    ∀ q : List Node, q.length ≤ k → 1 < q.length →
      ∃ f l r, mergeLoop q = [Node.node (-64) f l r] := by
  induction k with
  | zero =>
    intro q hq h1
    omega
  | succ k ih =>
    intro q hq h1
    match q with
    | [] => simp at h1
    | [a] => simp at h1
    | a :: b :: rest =>
      rw [mergeLoop_cons₂]
      cases rest with
      | nil =>
        simp only [pqPush]
        rw [mergeLoop_single]
        exact ⟨_, _, _, rfl⟩
      | cons c cs =>
        apply ih
        · rw [pqPush_length]
          simp only [List.length_cons] at hq ⊢
          omega
        · rw [pqPush_length]
          simp

theorem mergeLoop_root_internal (q : List Node) (h1 : 1 < q.length) :
    ∃ f l r, mergeLoop q = [Node.node (-64) f l r] :=
  mergeLoop_root_internal_aux q.length q le_rfl h1

/-! ## Structure of the constructed object -/

/-- The queue of leaves pushed by the constructor's first loop. -/
def initQueue (F : List (Int × Int)) : List Node :=
  F.foldl (fun q p => if p.2 > 0 then pqPush (Node.node p.1 p.2 .null .null) q else q) []

theorem construct_frequencies (file : Option (List Int)) :
    (huffman_tree.construct file).frequencies = read_file file := rfl

theorem construct_node_queue (file : Option (List Int)) :
    (huffman_tree.construct file).node_queue =
      mergeLoop (initQueue (read_file file)) := rfl

theorem initQueue_aux_length (F : List (Int × Int)) (acc : List Node)
    (hF : ∀ p ∈ F, 0 < p.2) :
    (F.foldl (fun q p => if p.2 > 0 then pqPush (Node.node p.1 p.2 .null .null) q
      else q) acc).length = acc.length + F.length := by
  induction F generalizing acc with
  | nil => simp
  | cons p rest ih =>
    simp only [List.foldl_cons]
    rw [if_pos (hF p (by simp))]
    rw [ih _ (fun q hq => hF q (List.mem_cons_of_mem _ hq))]
    rw [pqPush_length]
    simp only [List.length_cons]
    omega

theorem initQueue_length (F : List (Int × Int)) (hF : ∀ p ∈ F, 0 < p.2) :
    (initQueue F).length = F.length := by
  rw [initQueue, initQueue_aux_length F [] hF]
  simp

theorem initQueue_aux_mem (F : List (Int × Int)) (acc : List Node) (n : Node) :
    n ∈ F.foldl (fun q p => if p.2 > 0 then pqPush (Node.node p.1 p.2 .null .null) q
      else q) acc ↔
    n ∈ acc ∨ ∃ p ∈ F, 0 < p.2 ∧ n = Node.node p.1 p.2 .null .null := by
  induction F generalizing acc with
  | nil => simp
  | cons p rest ih =>
    simp only [List.foldl_cons]
    rw [ih]
    by_cases hp : p.2 > 0
    · rw [if_pos hp, mem_pqPush]
      constructor
      · rintro (⟨h | h⟩ | ⟨q, hq, hq0, hn⟩)
        · exact Or.inr ⟨p, by simp, hp, h⟩
        · exact Or.inl h
        · exact Or.inr ⟨q, List.mem_cons_of_mem _ hq, hq0, hn⟩
      · rintro (h | ⟨q, hq, hq0, hn⟩)
        · exact Or.inl (Or.inr h)
        · rw [List.mem_cons] at hq
          rcases hq with h | h
          · subst h
            exact Or.inl (Or.inl hn)
          · exact Or.inr ⟨q, h, hq0, hn⟩
    · rw [if_neg hp]
      constructor
      · rintro (h | ⟨q, hq, hq0, hn⟩)
        · exact Or.inl h
        · exact Or.inr ⟨q, List.mem_cons_of_mem _ hq, hq0, hn⟩
      · rintro (h | ⟨q, hq, hq0, hn⟩)
        · exact Or.inl h
        · rw [List.mem_cons] at hq
          rcases hq with h | h
          · subst h; exact absurd hq0 hp
          · exact Or.inr ⟨q, h, hq0, hn⟩

theorem initQueue_mem (F : List (Int × Int)) (n : Node) :
    n ∈ initQueue F ↔ ∃ p ∈ F, 0 < p.2 ∧ n = Node.node p.1 p.2 .null .null := by
  rw [initQueue, initQueue_aux_mem]
  simp

theorem initQueue_aux_freqSum (F : List (Int × Int)) (acc : List Node)
    (hF : ∀ p ∈ F, 0 < p.2) :
    ((F.foldl (fun q p => if p.2 > 0 then pqPush (Node.node p.1 p.2 .null .null) q
      else q) acc).map Node.frequency).sum =
    (acc.map Node.frequency).sum + (F.map (fun p => p.2)).sum := by
  induction F generalizing acc with
  | nil => simp
  | cons p rest ih =>
    simp only [List.foldl_cons]
    rw [if_pos (hF p (by simp))]
    rw [ih _ (fun q hq => hF q (List.mem_cons_of_mem _ hq))]
    rw [pqPush_freqSum]
    simp only [Node.frequency, List.map_cons, List.sum_cons]
    ring

theorem initQueue_freqSum (F : List (Int × Int)) (hF : ∀ p ∈ F, 0 < p.2) :
    ((initQueue F).map Node.frequency).sum = (F.map (fun p => p.2)).sum := by
  rw [initQueue, initQueue_aux_freqSum F [] hF]
  simp

theorem initQueue_qLeafMem (F : List (Int × Int)) (hF : ∀ p ∈ F, 0 < p.2) (x : Int) :
    qLeafMem (initQueue F) x ↔ ∃ p ∈ F, x = p.1 ∧ 0 ≤ p.1 := by
  constructor
  · rintro ⟨n, hn, hx⟩
    rw [initQueue_mem] at hn
    obtain ⟨p, hp, hp0, hn⟩ := hn
    subst hn
    simp only [leafChars] at hx
    split at hx
    · rw [List.mem_singleton] at hx
      subst hx
      exact ⟨p, hp, rfl, by assumption⟩
    · simp at hx
  · rintro ⟨p, hp, hx, h0⟩
    subst hx
    refine ⟨Node.node p.1 p.2 .null .null, ?_, ?_⟩
    · rw [initQueue_mem]
      exact ⟨p, hp, hF p hp, rfl⟩
    · simp only [leafChars]
      rw [if_pos h0]
      simp

theorem construct_queue_nil (file : Option (List Int))
    (h : read_file file = []) :
    (huffman_tree.construct file).node_queue = [] := by
  rw [construct_node_queue, h]
  rw [show initQueue [] = [] from rfl, mergeLoop_nil]

theorem construct_queue_root (file : Option (List Int))
    (h : read_file file ≠ []) :
    ∃ root, (huffman_tree.construct file).node_queue = [root] ∧
      root.frequency = ((read_file file).map (fun p => p.2)).sum ∧
      (∀ x, x ∈ leafChars root ↔
        ∃ p ∈ read_file file, x = p.1 ∧ 0 ≤ p.1) := by
  have hF : ∀ p ∈ read_file file, 0 < p.2 := by
    intro p hp
    have := read_file_pos file p hp
    omega
  have hlen : (initQueue (read_file file)).length = (read_file file).length :=
    initQueue_length _ hF
  have hne : initQueue (read_file file) ≠ [] := by
    intro h0
    apply h
    have := congrArg List.length h0
    rw [hlen] at this
    exact List.eq_nil_of_length_eq_zero this
  have h1 : (mergeLoop (initQueue (read_file file))).length = 1 :=
    mergeLoop_length_one _ hne
  obtain ⟨root, hroot⟩ : ∃ root, mergeLoop (initQueue (read_file file)) = [root] := by
    cases hq : mergeLoop (initQueue (read_file file)) with
    | nil => rw [hq] at h1; simp at h1
    | cons a rest =>
      rw [hq] at h1
      simp only [List.length_cons] at h1
      have : rest = [] := List.eq_nil_of_length_eq_zero (by omega)
      subst this
      exact ⟨a, rfl⟩
  refine ⟨root, ?_, ?_, ?_⟩
  · rw [construct_node_queue, hroot]
  · have := mergeLoop_freqSum (initQueue (read_file file))
    rw [hroot] at this
    simp only [List.map_cons, List.map_nil, List.sum_cons, List.sum_nil, add_zero] at this
    rw [this, initQueue_freqSum _ hF]
  · intro x
    have := mergeLoop_qLeafMem (initQueue (read_file file)) x
    rw [hroot] at this
    rw [initQueue_qLeafMem _ hF] at this
    rw [show qLeafMem [root] x ↔ x ∈ leafChars root by
      constructor
      · rintro ⟨n, hn, hx⟩
        rw [List.mem_singleton] at hn
        subst hn
        exact hx
      · intro hx
        exact ⟨root, by simp, hx⟩] at this
    exact this

theorem construct_root_proper (file : Option (List Int))
    (hkeys : ∀ p ∈ read_file file, 0 ≤ p.1) :
    ∀ n ∈ (huffman_tree.construct file).node_queue, Proper n := by
  rw [construct_node_queue]
  apply mergeLoop_closed
  · intro a b ha hb
    exact Proper.internal _ _ _ _ (by omega) ha hb
  · intro n hn
    rw [initQueue_mem] at hn
    obtain ⟨p, hp, hp0, hn⟩ := hn
    subst hn
    exact Proper.leaf _ _ _ _ (hkeys p hp)

theorem construct_root_internal (file : Option (List Int))
    (h2 : 1 < (read_file file).length) :
    ∃ f l r, (huffman_tree.construct file).node_queue = [Node.node (-64) f l r] := by
  have hF : ∀ p ∈ read_file file, 0 < p.2 := by
    intro p hp
    have := read_file_pos file p hp
    omega
  rw [construct_node_queue]
  apply mergeLoop_root_internal
  rw [initQueue_length _ hF]
  exact h2

/-! ## Decode traversal lemmas -/

theorem decodeInner_nil (c f : Int) (l r : Node) :
    decodeInner (.node c f l r) [] = .ok (.node c f l r) [] := by
  simp only [decodeInner]
  split <;> rfl

theorem decodeInner_leaf (c f : Int) (l r : Node) (h0 : ¬ c < 0) (s : List Char) :
    decodeInner (.node c f l r) s = .ok (.node c f l r) s := by
  cases s <;> simp only [decodeInner, if_neg h0]

theorem decodeInner_cons (c f : Int) (l r : Node) (hneg : c < 0)
    (b : Char) (s : List Char) :
    decodeInner (.node c f l r) (b :: s) =
      if b = '0' then decodeInner l s
      else if b = '1' then decodeInner r s
      else .bad := by
  simp only [decodeInner, if_pos hneg]

theorem decodeInner_ok_sub (nd : Node) :
    ∀ (s : List Char) (n' : Node) (rest : List Char),
      decodeInner nd s = .ok n' rest →
      ∃ pre, s = pre ++ rest ∧ ∀ b ∈ pre, b = '0' ∨ b = '1' := by
  induction nd with
  | null =>
    intro s n' rest h
    simp only [decodeInner, InnerRes.ok.injEq] at h
    exact ⟨[], by simp [h.2], by simp⟩
  | node c f l r ihl ihr =>
    intro s n' rest h
    by_cases hc : c < 0
    · cases s with
      | nil =>
        rw [decodeInner_nil] at h
        simp only [InnerRes.ok.injEq] at h
        exact ⟨[], by simp [h.2], by simp⟩
      | cons b s' =>
        rw [decodeInner_cons c f l r hc] at h
        by_cases hb0 : b = '0'
        · rw [if_pos hb0] at h
          obtain ⟨pre, hpre, hbits⟩ := ihl s' n' rest h
          refine ⟨b :: pre, by simp [hpre], ?_⟩
          intro x hx
          rw [List.mem_cons] at hx
          rcases hx with hx | hx
          · subst hx; exact Or.inl hb0
          · exact hbits x hx
        · rw [if_neg hb0] at h
          by_cases hb1 : b = '1'
          · rw [if_pos hb1] at h
            obtain ⟨pre, hpre, hbits⟩ := ihr s' n' rest h
            refine ⟨b :: pre, by simp [hpre], ?_⟩
            intro x hx
            rw [List.mem_cons] at hx
            rcases hx with hx | hx
            · subst hx; exact Or.inr hb1
            · exact hbits x hx
          · rw [if_neg hb1] at h
            exact absurd h (by simp)
    · rw [decodeInner_leaf c f l r hc] at h
      simp only [InnerRes.ok.injEq] at h
      exact ⟨[], by simp [h.2], by simp⟩

theorem decodeInner_length (nd : Node) (s : List Char) (n' : Node)
    (rest : List Char) (h : decodeInner nd s = .ok n' rest) :
    rest.length ≤ s.length := by
  obtain ⟨pre, hpre, _⟩ := decodeInner_ok_sub nd s n' rest h
  subst hpre
  simp

theorem decodeInner_progress (c f : Int) (l r : Node) (hneg : c < 0)
    (b : Char) (s : List Char) (n' : Node) (rest : List Char)
    (h : decodeInner (.node c f l r) (b :: s) = .ok n' rest) :
    rest.length < (b :: s).length := by
  rw [decodeInner_cons c f l r hneg] at h
  split at h
  · have := decodeInner_length _ _ _ _ h
    simp only [List.length_cons]
    omega
  · split at h
    · have := decodeInner_length _ _ _ _ h
      simp only [List.length_cons]
      omega
    · exact absurd h (by simp)

/-! ## Code-table lemmas -/

theorem encode_characters_sorted (nd : Node) :
    ∀ (ec : List (Int × List Char)) (code : List Char), mapSorted ec →
      mapSorted (encode_characters ec code nd) := by
  induction nd with
  | null => intro ec code hec; exact hec
  | node c f l r ihl ihr =>
    intro ec code hec
    by_cases h0 : 0 ≤ c
    · simp only [encode_characters, if_pos h0]
      exact assocEmplace_sorted _ _ _ hec
    · by_cases hl : l = Node.null <;> by_cases hr : r = Node.null
      · simp only [encode_characters, if_neg h0, if_pos hl, if_pos hr]
        exact hec
      · simp only [encode_characters, if_neg h0, if_pos hl, if_neg hr]
        exact ihr _ _ hec
      · simp only [encode_characters, if_neg h0, if_neg hl, if_pos hr]
        exact ihl _ _ hec
      · simp only [encode_characters, if_neg h0, if_neg hl, if_neg hr]
        exact ihr _ _ (ihl _ _ hec)

theorem encode_characters_find_mono (nd : Node) :
    ∀ (ec : List (Int × List Char)) (code : List Char) (x : Int) (w : List Char),
      mapSorted ec → assocFind ec x = some w →
      assocFind (encode_characters ec code nd) x = some w := by
  induction nd with
  | null => intro ec code x w hec h; exact h
  | node c f l r ihl ihr =>
    intro ec code x w hec h
    by_cases h0 : 0 ≤ c
    · simp only [encode_characters, if_pos h0]
      rw [assocFind_assocEmplace _ _ _ _ hec]
      split
      · subst ‹x = c›
        rw [h]
        rfl
      · exact h
    · by_cases hl : l = Node.null <;> by_cases hr : r = Node.null
      · simp only [encode_characters, if_neg h0, if_pos hl, if_pos hr]
        exact h
      · simp only [encode_characters, if_neg h0, if_pos hl, if_neg hr]
        exact ihr _ _ _ _ hec h
      · simp only [encode_characters, if_neg h0, if_neg hl, if_pos hr]
        exact ihl _ _ _ _ hec h
      · simp only [encode_characters, if_neg h0, if_neg hl, if_neg hr]
        exact ihr _ _ _ _ (encode_characters_sorted l ec _ hec)
          (ihl _ _ _ _ hec h)

theorem encode_characters_mem_find (nd : Node) (hp : Proper nd) :
    ∀ (ec : List (Int × List Char)) (code : List Char) (x : Int),
      mapSorted ec → x ∈ leafChars nd →
      ∃ w, assocFind (encode_characters ec code nd) x = some w := by
  induction hp with
  | leaf c f l r h0 =>
    intro ec code x hec hx
    simp only [leafChars, if_pos h0] at hx
    rw [List.mem_singleton] at hx
    subst hx
    simp only [encode_characters, if_pos h0]
    rw [assocFind_assocEmplace _ _ _ _ hec]
    rw [if_pos rfl]
    exact ⟨_, rfl⟩
  | internal c f l r hneg hpl hpr ihl ihr =>
    intro ec code x hec hx
    have hlnn : l ≠ Node.null := hpl.ne_null
    have hrnn : r ≠ Node.null := hpr.ne_null
    simp only [leafChars] at hx
    rw [if_neg (by omega)] at hx
    rw [List.mem_append] at hx
    simp only [encode_characters, if_neg (by omega : ¬ 0 ≤ c), if_neg hlnn,
      if_neg hrnn]
    rcases hx with hx | hx
    · obtain ⟨w, hw⟩ := ihl ec (code ++ ['0']) x hec hx
      exact ⟨w, encode_characters_find_mono r _ _ _ _
        (encode_characters_sorted l ec _ hec) hw⟩
    · exact ihr _ (code ++ ['1']) x (encode_characters_sorted l ec _ hec) hx

theorem encode_characters_find_spec (nd : Node) (hp : Proper nd) :
    ∀ (ec : List (Int × List Char)) (code : List Char) (x : Int) (w : List Char),
      mapSorted ec →
      assocFind (encode_characters ec code nd) x = some w →
      assocFind ec x = some w ∨
      ∃ w' fx lx rx, w = code ++ w' ∧ 0 ≤ x ∧
        ∀ rest, decodeInner nd (w' ++ rest) = .ok (.node x fx lx rx) rest := by
  induction hp with
  | leaf c f l r h0 =>
    intro ec code x w hec hfind
    simp only [encode_characters, if_pos h0] at hfind
    rw [assocFind_assocEmplace _ _ _ _ hec] at hfind
    by_cases hxc : x = c
    · subst hxc
      rw [if_pos rfl] at hfind
      cases hc : assocFind ec x with
      | some w0 =>
        rw [hc] at hfind
        simp only [Option.getD_some] at hfind
        left
        exact hfind
      | none =>
        rw [hc] at hfind
        simp only [Option.getD_none, Option.some_inj] at hfind
        right
        refine ⟨[], f, l, r, by simp [hfind], h0, ?_⟩
        intro rest
        rw [List.nil_append]
        exact decodeInner_leaf x f l r (by omega) rest
    · rw [if_neg hxc] at hfind
      left
      exact hfind
  | internal c f l r hneg hpl hpr ihl ihr =>
    intro ec code x w hec hfind
    have hlnn : l ≠ Node.null := hpl.ne_null
    have hrnn : r ≠ Node.null := hpr.ne_null
    simp only [encode_characters, if_neg (by omega : ¬ 0 ≤ c), if_neg hlnn,
      if_neg hrnn] at hfind
    have hec1 : mapSorted (encode_characters ec (code ++ ['0']) l) :=
      encode_characters_sorted l ec _ hec
    rcases ihr _ _ x w hec1 hfind with h | ⟨w', fx, lx, rx, hw, hx, htrav⟩
    · rcases ihl _ _ x w hec h with h2 | ⟨w', fx, lx, rx, hw, hx, htrav⟩
      · exact Or.inl h2
      · right
        refine ⟨'0' :: w', fx, lx, rx, by simp [hw], hx, ?_⟩
        intro rest
        rw [List.cons_append, decodeInner_cons c f l r hneg, if_pos rfl]
        exact htrav rest
    · right
      refine ⟨'1' :: w', fx, lx, rx, by simp [hw], hx, ?_⟩
      intro rest
      rw [List.cons_append, decodeInner_cons c f l r hneg, if_neg (by decide),
        if_pos rfl]
      exact htrav rest

/-- Codes recorded from an empty table: every stored code, traversed from the
root, reaches the leaf of its character and consumes exactly the code. -/
theorem code_traversal (root : Node) (hp : Proper root) (x : Int) (w : List Char)
    (h : assocFind (encode_characters [] [] root) x = some w) :
    0 ≤ x ∧ ∃ fx lx rx,
      ∀ rest, decodeInner root (w ++ rest) = .ok (.node x fx lx rx) rest := by
  rcases encode_characters_find_spec root hp [] [] x w trivial h with
    h0 | ⟨w', fx, lx, rx, hw, hx, htrav⟩
  · simp [assocFind] at h0
  · rw [List.nil_append] at hw
    subst hw
    exact ⟨hx, fx, lx, rx, htrav⟩

theorem code_ne_nil (c f : Int) (l r : Node) (hp : Proper (.node c f l r))
    (hneg : c < 0) (x : Int) (w : List Char)
    (h : assocFind (encode_characters [] [] (.node c f l r)) x = some w) :
    w ≠ [] := by
  rcases code_traversal _ hp x w h with ⟨hx, fx, lx, rx, htrav⟩
  intro hnil
  subst hnil
  have h0 := htrav []
  rw [List.nil_append, decodeInner_nil] at h0
  simp only [InnerRes.ok.injEq, Node.node.injEq] at h0
  omega

/-! ## The outer decode loop -/

theorem decodeLoop_nil (root : Node) : decodeLoop root [] = some [] := rfl

theorem decodeSteps_mono (root : Node) (k : Nat) :
    ∀ (k2 : Nat), k ≤ k2 → ∀ (s : List Char) (out : List Int),
      decodeSteps root k s = some out → decodeSteps root k2 s = some out := by
  induction k with
  | zero =>
    intro k2 hk s out h
    cases s with
    | nil => cases k2 <;> simpa using h
    | cons b s2 => simp [decodeSteps] at h
  | succ k ih =>
    intro k2 hk s out h
    cases s with
    | nil => cases k2 <;> simpa using h
    | cons b s2 =>
      obtain ⟨k3, rfl⟩ : ∃ k3, k2 = k3 + 1 := ⟨k2 - 1, by omega⟩
      simp only [decodeSteps] at h ⊢
      cases hres : decodeInner root (b :: s2) with
      | bad =>
        rw [hres] at h
        simp at h
      | ok n2 rest =>
        rw [hres] at h
        cases n2 with
        | null => simp at h
        | node c f l r =>
          simp only [] at h ⊢
          cases hrec : decodeSteps root k rest with
          | none =>
            rw [hrec] at h
            simp at h
          | some out2 =>
            rw [hrec] at h
            simp only [] at h
            rw [ih k3 (by omega) rest out2 hrec]
            exact h

theorem decodeLoop_step (c f : Int) (l r : Node)
    (x : Int) (fx : Int) (lx rx : Node) (w : List Char) (hw : w ≠ [])
    (htrav : ∀ rest, decodeInner (.node c f l r) (w ++ rest) =
      .ok (.node x fx lx rx) rest)
    (s : List Char) (out : List Int)
    (hs : decodeLoop (.node c f l r) s = some out) :
    decodeLoop (.node c f l r) (w ++ s) = some (x :: out) := by
  cases w with
  | nil => exact absurd rfl hw
  | cons wc w2 =>
    rw [decodeLoop] at hs ⊢
    rw [List.cons_append]
    simp only [List.length_cons]
    simp only [decodeSteps]
    have ht := htrav s
    rw [List.cons_append] at ht
    rw [ht]
    simp only []
    rw [decodeSteps_mono (.node c f l r) s.length ((w2 ++ s).length)
      (by simp) s out hs]

theorem decodeSteps_bad (root : Node) (k : Nat) :
    ∀ s : List Char, ∀ b ∈ s, b ≠ '0' → b ≠ '1' →
      decodeSteps root k s = none := by
  induction k with
  | zero =>
    intro s b hb hb0 hb1
    cases s with
    | nil => simp at hb
    | cons a s2 => rfl
  | succ k ih =>
    intro s b hb hb0 hb1
    cases s with
    | nil => simp at hb
    | cons a s2 =>
      simp only [decodeSteps]
      cases hres : decodeInner root (a :: s2) with
      | bad => rfl
      | ok n2 rest =>
        cases n2 with
        | null => rfl
        | node cx fx lx rx =>
          obtain ⟨pre, hpre, hbits⟩ := decodeInner_ok_sub _ _ _ _ hres
          have hbrest : b ∈ rest := by
            rw [hpre, List.mem_append] at hb
            rcases hb with h | h
            · rcases hbits b h with h2 | h2 <;> contradiction
            · exact h
          simp only []
          rw [ih rest b hbrest hb0 hb1]

theorem decodeLoop_bad (root : Node) (s : List Char) (b : Char) (hb : b ∈ s)
    (hb0 : b ≠ '0') (hb1 : b ≠ '1') : decodeLoop root s = none :=
  decodeSteps_bad root s.length s b hb hb0 hb1

theorem decodeLoop_codes (c f : Int) (l r : Node)
    (ec : List (Int × List Char))
    (hspec : ∀ x w, assocFind ec x = some w →
      w ≠ [] ∧ ∃ fx lx rx, ∀ rest,
        decodeInner (.node c f l r) (w ++ rest) = .ok (.node x fx lx rx) rest) :
    ∀ (xs : List Int) (s : List Char),
      encodeLineChars ec xs = some s →
      decodeLoop (.node c f l r) s = some xs := by
  intro xs
  induction xs with
  | nil =>
    intro s h
    simp only [encodeLineChars, Option.some_inj] at h
    subst h
    exact decodeLoop_nil _
  | cons x xs ih =>
    intro s h
    simp only [encodeLineChars] at h
    cases hf : assocFind ec x with
    | none => rw [hf] at h; simp at h
    | some w =>
      rw [hf] at h
      cases he : encodeLineChars ec xs with
      | none => rw [he] at h; simp at h
      | some s2 =>
        rw [he] at h
        simp only [Option.some_inj] at h
        subst h
        obtain ⟨hwne, fx, lx, rx, htrav⟩ := hspec x w hf
        exact decodeLoop_step c f l r x fx lx rx w hwne htrav s2 xs (ih s2 he)

/-! ## Encoding lemmas -/

theorem encodeLineChars_append (ec : List (Int × List Char)) (a b : List Int) :
    encodeLineChars ec (a ++ b) =
      match encodeLineChars ec a, encodeLineChars ec b with
      | some s1, some s2 => some (s1 ++ s2)
      | _, _ => none := by
  induction a with
  | nil =>
    cases hb : encodeLineChars ec b <;> simp [encodeLineChars, hb]
  | cons c rest ih =>
    simp only [List.cons_append, encodeLineChars]
    cases hf : assocFind ec c with
    | none => rfl
    | some w =>
      rw [List.append_eq, ih]
      cases h1 : encodeLineChars ec rest <;>
        cases h2 : encodeLineChars ec b <;> simp

theorem encodeLines_eq_chars (ec : List (Int × List Char))
    (ls : List (List Int × Bool)) :
    encodeLines ec ls = encodeLineChars ec (joinLines ls) := by
  induction ls with
  | nil => rfl
  | cons lg rest ih =>
    obtain ⟨l, g⟩ := lg
    simp only [encodeLines, joinLines]
    rw [encodeLineChars_append, encodeLineChars_append, ← ih]
    cases hl : encodeLineChars ec l with
    | none => rfl
    | some s1 =>
      cases g with
      | false =>
        simp only [Bool.false_eq_true, if_false]
        cases he : encodeLines ec rest <;> simp [encodeLineChars]
      | true =>
        simp only [if_true]
        cases hf : assocFind ec 10 with
        | none => simp [encodeLineChars, hf]
        | some nl =>
          cases he : encodeLines ec rest <;> simp [encodeLineChars, hf]

/-! ## The single-character path -/

theorem decodeSingle_replicate (c : Int) (n : Nat) :
    decodeSingle c (List.replicate n '0') = some (List.replicate n c) := by
  induction n with
  | zero => rfl
  | succ k ih =>
    simp [List.replicate_succ, decodeSingle, ih]

theorem decodeSingle_none (c : Int) (s : List Char) (b : Char) (hb : b ∈ s)
    (hb0 : b ≠ '0') : decodeSingle c s = none := by
  induction s with
  | nil => simp at hb
  | cons a rest ih =>
    rw [List.mem_cons] at hb
    simp only [decodeSingle]
    by_cases ha : a = '0'
    · rw [if_pos ha]
      rcases hb with h | h
      · subst h; exact absurd ha hb0
      · rw [ih h]
    · rw [if_neg ha]

theorem encodeLineChars_single (c : Int) (xs : List Int)
    (hxs : ∀ y ∈ xs, y = c) :
    encodeLineChars [(c, ['0'])] xs = some (List.replicate xs.length '0') := by
  induction xs with
  | nil => rfl
  | cons y rest ih =>
    have hy : y = c := hxs y (by simp)
    subst hy
    simp only [encodeLineChars, assocFind, if_pos rfl]
    rw [ih (fun z hz => hxs z (List.mem_cons_of_mem _ hz))]
    simp [List.replicate_succ]

/-! ## Further helpers for the claims -/

theorem initQueue_aux_qSorted (F : List (Int × Int)) :
    ∀ acc : List Node, qSorted acc →
      qSorted (F.foldl (fun q p => if p.2 > 0 then
        pqPush (Node.node p.1 p.2 .null .null) q else q) acc) := by
  induction F with
  | nil => intro acc h; exact h
  | cons p rest ih =>
    intro acc h
    simp only [List.foldl_cons]
    by_cases hp : p.2 > 0
    · rw [if_pos hp]
      exact ih _ (pqPush_qSorted _ _ h)
    · rw [if_neg hp]
      exact ih _ h

theorem initQueue_qSorted (F : List (Int × Int)) : qSorted (initQueue F) :=
  initQueue_aux_qSorted F [] trivial

theorem mem_joinLines (ls : List (List Int × Bool)) (lg : List Int × Bool)
    (hlg : lg ∈ ls) (x : Int) (hx : x ∈ lg.1) : x ∈ joinLines ls := by
  induction ls with
  | nil => simp at hlg
  | cons p rest ih =>
    obtain ⟨l, g⟩ := p
    rw [List.mem_cons] at hlg
    simp only [joinLines, List.mem_append]
    rcases hlg with h | h
    · subst h
      exact Or.inl (Or.inl hx)
    · exact Or.inr (ih h)

theorem mem_content_of_lineOcc (content : List Int) (x : Int)
    (h : 0 < lineOcc (getlines content) x) : x ∈ content := by
  rw [lineOcc] at h
  obtain ⟨n, hn, hpos⟩ :
      ∃ n ∈ (getlines content).map (fun lg => lg.1.count x), 0 < n := by
    by_contra hcon
    push_neg at hcon
    have hz : ((getlines content).map (fun lg => lg.1.count x)).sum = 0 := by
      apply List.sum_eq_zero
      intro n hn
      have := hcon n hn
      omega
    omega
  rcases List.mem_map.1 hn with ⟨lg, hlg, hc⟩
  have hxin : x ∈ lg.1 := by
    rw [← List.count_pos_iff]
    omega
  rw [← joinLines_getlines content]
  exact mem_joinLines _ lg hlg x hxin

theorem read_file_keys_nonneg (content : List Int)
    (hascii : ∀ c ∈ content, 0 ≤ c) :
    ∀ p ∈ read_file (some content), 0 ≤ p.1 := by
  intro p hp
  have hfind := assocFind_of_mem _ p (read_file_sorted (some content)) hp
  rw [read_file_find] at hfind
  split at hfind
  · omega
  · split at hfind
    · rename_i hocc
      exact hascii p.1 (mem_content_of_lineOcc content p.1 hocc)
    · simp at hfind

theorem read_file_mem_content (content : List Int) (x : Int) (hx : x ∈ content) :
    ∃ v, assocFind (read_file (some content)) x = some v := by
  have hc : 0 < content.count x := List.count_pos_iff.2 hx
  have hc2 : (joinLines (getlines content)).count x = content.count x := by
    rw [joinLines_getlines]
  rw [count_joinLines] at hc2
  rw [read_file_find]
  by_cases h10 : x = 10
  · subst h10
    rw [if_pos rfl]
    rw [lineOcc_getlines_ten, if_pos rfl] at hc2
    rw [if_pos (by omega)]
    exact ⟨_, rfl⟩
  · rw [if_neg h10]
    rw [if_neg h10] at hc2
    rw [if_pos (by omega)]
    exact ⟨_, rfl⟩

theorem encodeLineChars_total (ec : List (Int × List Char)) (xs : List Int)
    (h : ∀ x ∈ xs, ∃ w, assocFind ec x = some w) :
    ∃ s, encodeLineChars ec xs = some s := by
  induction xs with
  | nil => exact ⟨[], rfl⟩
  | cons x rest ih =>
    obtain ⟨w, hw⟩ := h x (by simp)
    obtain ⟨s, hs⟩ := ih (fun y hy => h y (List.mem_cons_of_mem _ hy))
    refine ⟨w ++ s, ?_⟩
    simp only [encodeLineChars, hw, hs]

/-- The three shapes of the code table produced by the constructor. -/
theorem construct_encoded_chars_zero (file : Option (List Int))
    (h : read_file file = []) :
    (huffman_tree.construct file).encoded_chars = [] := by
  simp only [huffman_tree.construct, h]
  rfl

theorem construct_encoded_chars_single (file : Option (List Int)) (c v : Int)
    (h : read_file file = [(c, v)]) :
    (huffman_tree.construct file).encoded_chars = [(c, ['0'])] := by
  simp only [huffman_tree.construct, h]
  rfl

theorem construct_encoded_chars_multi (file : Option (List Int))
    (h2 : (read_file file).length ≠ 1) :
    (huffman_tree.construct file).encoded_chars =
      (match mergeLoop (initQueue (read_file file)) with
        | root :: _ => encode_characters [] [] root
        | [] => []) := by
  simp only [huffman_tree.construct]
  rw [if_pos h2, if_neg (by omega : ¬ (read_file file).length = 1)]
  rfl

/-- Whether some character of some line, or the newline code of a
newline-terminated line, is missing from the code table: the failure
condition of `encode`. -/
def hasMissing (ec : List (Int × List Char)) (ls : List (List Int × Bool)) : Bool :=
  ls.any (fun lg => lg.1.any (fun ch => (assocFind ec ch).isNone)
    || (lg.2 && (assocFind ec 10).isNone))

/-- The success case of `encode` in the spec's words: the concatenation of
the characters' codes in input order, with the terminator symbol's code
appended after each terminator-bearing line. -/
def specConcat (ec : List (Int × List Char)) : List (List Int × Bool) → List Char
  | [] => []
  | (l, g) :: rest =>
    (l.map (fun ch => (assocFind ec ch).getD [])).flatten
      ++ (if g then (assocFind ec 10).getD [] else [])
      ++ specConcat ec rest

theorem encodeLineChars_spec (ec : List (Int × List Char)) (l : List Int) :
    encodeLineChars ec l =
      if l.any (fun ch => (assocFind ec ch).isNone) then none
      else some ((l.map (fun ch => (assocFind ec ch).getD [])).flatten) := by
  induction l with
  | nil => rfl
  | cons c rest ih =>
    simp only [encodeLineChars, List.any_cons, List.map_cons, List.flatten_cons]
    cases hf : assocFind ec c with
    | none => simp
    | some w =>
      rw [ih]
      by_cases ha : rest.any (fun ch => (assocFind ec ch).isNone) <;>
        simp [ha]

theorem encodeLines_spec (ec : List (Int × List Char))
    (ls : List (List Int × Bool)) :
    encodeLines ec ls =
      if hasMissing ec ls then none else some (specConcat ec ls) := by
  induction ls with
  | nil => rfl
  | cons lg rest ih =>
    obtain ⟨l, g⟩ := lg
    simp only [encodeLines, specConcat, hasMissing, List.any_cons]
    rw [encodeLineChars_spec]
    rw [show (rest.any fun lg => (lg.1.any fun ch => (assocFind ec ch).isNone)
        || (lg.2 && (assocFind ec 10).isNone)) = hasMissing ec rest from rfl]
    cases h1 : (l.any fun ch => (assocFind ec ch).isNone) with
    | true => simp
    | false =>
      simp only [Bool.false_or, if_false]
      cases g with
      | false =>
        simp only [Bool.false_and, Bool.false_or]
        rw [ih]
        cases h2 : hasMissing ec rest with
        | true => simp
        | false => simp
      | true =>
        simp only [Bool.true_and]
        cases hf : assocFind ec 10 with
        | none => simp [hf]
        | some nl =>
          simp only [hf, Option.isNone_some, Bool.false_or]
          rw [ih]
          cases h2 : hasMissing ec rest with
          | true => simp
          | false => simp

/-! ## The claims -/

/-- C8: frequency-table construction counts each occurrence of every
character of every line, increments the line-terminator symbol's count once
after each newline-terminated line, omits the terminator symbol entirely
(absent, not zero) when no such line exists, and yields an empty table for
an unreadable source. -/
theorem claim_C8 :
    read_file none = [] ∧
    ∀ (content : List Int) (c : Int),
      assocFind (read_file (some content)) c =
        if c = 10 then
          (if 0 < goodLines (getlines content)
            then some ((goodLines (getlines content) : Int)) else none)
        else
          (if 0 < lineOcc (getlines content) c
            then some ((lineOcc (getlines content) c : Int)) else none) :=
  ⟨rfl, read_file_find⟩

/-- C10: after construction the priority queue holds exactly one node — the
root, whose frequency is the sum of all counts in the frequency table — when
at least one symbol was observed, and is empty when none was. -/
theorem claim_C10 (file : Option (List Int)) :
    ((huffman_tree.construct file).node_queue).map Node.frequency =
      (if (huffman_tree.construct file).frequencies = [] then []
       else [(((huffman_tree.construct file).frequencies).map
         (fun p => p.2)).sum]) := by
  by_cases h : read_file file = []
  · rw [construct_queue_nil file h, construct_frequencies, if_pos h]
    rfl
  · obtain ⟨root, hq, hsum, _⟩ := construct_queue_root file h
    rw [hq, construct_frequencies, if_neg h]
    simp [hsum]

/-- C7: during construction the priority collection is frequency-sorted, and
while more than one node remains the two lowest-frequency nodes `a` (removed
first, frequency not larger than `b`'s) and `b` are removed, a fresh
internal node with frequency `a.frequency + b.frequency`, left child `a` and
right child `b` is inserted back, and the loop terminates with exactly one
node. -/
theorem claim_C7 :
    (∀ F : List (Int × Int), qSorted (initQueue F)) ∧
    (∀ q : List Node, qSorted q → 1 < q.length →
      ∃ a b rest, q = a :: b :: rest ∧
        a.frequency ≤ b.frequency ∧
        (∀ n ∈ rest, a.frequency ≤ n.frequency ∧ b.frequency ≤ n.frequency) ∧
        mergeLoop q = mergeLoop
          (pqPush (Node.node (-64) (a.frequency + b.frequency) a b) rest) ∧
        (mergeLoop q).length = 1) := by
  refine ⟨initQueue_qSorted, ?_⟩
  intro q hs h2
  match q with
  | [] => simp at h2
  | [a] => simp at h2
  | a :: b :: rest =>
    obtain ⟨ha, hb, hrest⟩ := hs
    exact ⟨a, b, rest, rfl, ha b (by simp),
      fun n hn => ⟨ha n (List.mem_cons_of_mem _ hn), hb n hn⟩,
      mergeLoop_cons₂ a b rest, mergeLoop_length_one _ (by simp)⟩

/-- Witness for C7 on a concrete two-leaf queue. -/
theorem claim_C7_witness :
    (qSorted [Node.node 98 1 Node.null Node.null,
        Node.node 97 2 Node.null Node.null] ∧
      1 < ([Node.node 98 1 Node.null Node.null,
        Node.node 97 2 Node.null Node.null] : List Node).length) ∧
    (∃ a b rest, [Node.node 98 1 Node.null Node.null,
        Node.node 97 2 Node.null Node.null] = a :: b :: rest ∧
      a.frequency ≤ b.frequency ∧
      (∀ n ∈ rest, a.frequency ≤ n.frequency ∧ b.frequency ≤ n.frequency) ∧
      mergeLoop [Node.node 98 1 Node.null Node.null,
        Node.node 97 2 Node.null Node.null] = mergeLoop
        (pqPush (Node.node (-64) (a.frequency + b.frequency) a b) rest) ∧
      (mergeLoop [Node.node 98 1 Node.null Node.null,
        Node.node 97 2 Node.null Node.null]).length = 1) :=
  ⟨⟨by simp [qSorted, Node.frequency], by decide⟩,
    claim_C7.2 _ (by simp [qSorted, Node.frequency]) (by decide)⟩

/-- C4: when exactly one distinct symbol was observed, its code is exactly
"0" and decoding "000" yields that symbol three times. -/
theorem claim_C4 (file : Option (List Int)) (c v : Int)
    (h : (huffman_tree.construct file).frequencies = [(c, v)]) :
    (huffman_tree.construct file).get_character_code c = ['0'] ∧
    (huffman_tree.construct file).decode ['0', '0', '0'] = [c, c, c] := by
  have hrf : read_file file = [(c, v)] := by
    rw [← construct_frequencies]
    exact h
  have hec := construct_encoded_chars_single file c v hrf
  constructor
  · rw [huffman_tree.get_character_code, hec]
    simp [assocFind]
  · simp only [huffman_tree.decode, h]
    norm_num
    simp [decodeSingle]

/-- Witness for C4 on the source "aa". -/
theorem claim_C4_witness :
    (huffman_tree.construct (some [97, 97])).frequencies = [(97, 2)] ∧
    (huffman_tree.construct (some [97, 97])).get_character_code 97 = ['0'] ∧
    (huffman_tree.construct (some [97, 97])).decode ['0', '0', '0']
      = [97, 97, 97] :=
  ⟨by decide, (claim_C4 (some [97, 97]) 97 2 (by decide)).1,
    (claim_C4 (some [97, 97]) 97 2 (by decide)).2⟩

/-- C2 fails on the code: decoding the one-bit string "1" against the tree
built from "aabc" ends mid-traversal at an internal node, and `decode`
appends that node's sentinel character (-64) to the output instead of
returning the empty string. -/
theorem claim_C2 :
    (huffman_tree.construct (some [97, 97, 98, 99])).decode ['1'] = [-64] ∧
    (huffman_tree.construct (some [97, 97, 98, 99])).decode ['1'] ≠ [] := by
  constructor <;> decide

/-- C5: encode is all-or-nothing — it returns the empty string exactly when
some character of some line (or the newline of a terminated line) has no
entry in the code table, and otherwise returns the concatenation of the
characters' codes in input order with the terminator's code appended after
each terminator-bearing line. -/
theorem claim_C5 (t : huffman_tree) (content : List Int) :
    t.encode (some content) =
      if hasMissing t.encoded_chars (getlines content) then []
      else specConcat t.encoded_chars (getlines content) := by
  simp only [huffman_tree.encode]
  rw [encodeLines_spec]
  by_cases h : hasMissing t.encoded_chars (getlines content)
  · simp [h]
  · simp [h]

/-- C6: decode of any input containing a character other than '0'/'1'
returns the empty string, for a tree built from any source (all of the
N ≥ 2, N = 1 and N = 0 paths). -/
theorem claim_C6 (file : Option (List Int)) (s : List Char) (b : Char)
    (hb : b ∈ s) (hb0 : b ≠ '0') (hb1 : b ≠ '1') :
    (huffman_tree.construct file).decode s = [] := by
  simp only [huffman_tree.decode]
  by_cases h2 : (huffman_tree.construct file).frequencies.length > 1
  · rw [if_pos h2]
    cases hq : (huffman_tree.construct file).node_queue with
    | nil => rfl
    | cons root rest =>
      simp only []
      rw [decodeLoop_bad root s b hb hb0 hb1]
  · rw [if_neg h2]
    by_cases h1 : (huffman_tree.construct file).frequencies.length = 1
    · rw [if_pos h1]
      cases hfreq : (huffman_tree.construct file).frequencies with
      | nil => rfl
      | cons p ps =>
        obtain ⟨c, v⟩ := p
        simp only []
        rw [decodeSingle_none c s b hb hb0]
    · rw [if_neg h1]

/-- Witness for C6 on the source "ab" and the input "x". -/
theorem claim_C6_witness :
    ('x' ∈ ['x'] ∧ 'x' ≠ '0' ∧ 'x' ≠ '1') ∧
    (huffman_tree.construct (some [97, 98])).decode ['x'] = [] :=
  ⟨⟨by decide, by decide, by decide⟩,
    claim_C6 (some [97, 98]) ['x'] 'x' (by decide) (by decide) (by decide)⟩

theorem encode_characters_binary (nd : Node) :
    ∀ (ec : List (Int × List Char)) (code : List Char),
      (∀ p ∈ ec, ∀ e ∈ p.2, e = '0' ∨ e = '1') →
      (∀ e ∈ code, e = '0' ∨ e = '1') →
      ∀ p ∈ encode_characters ec code nd, ∀ e ∈ p.2, e = '0' ∨ e = '1' := by
  induction nd with
  | null => intro ec code hec _ p hp; exact hec p hp
  | node c f l r ihl ihr =>
    intro ec code hec hcode p hp
    by_cases h0 : 0 ≤ c
    · simp only [encode_characters, if_pos h0] at hp
      rcases mem_assocEmplace ec c code p hp with h | h
      · exact hec p h
      · subst h
        exact hcode
    · have hcode0 : ∀ e ∈ code ++ ['0'], e = '0' ∨ e = '1' := by
        intro e he
        rw [List.mem_append] at he
        rcases he with h | h
        · exact hcode e h
        · rw [List.mem_singleton] at h
          subst h
          left
          rfl
      have hcode1 : ∀ e ∈ code ++ ['1'], e = '0' ∨ e = '1' := by
        intro e he
        rw [List.mem_append] at he
        rcases he with h | h
        · exact hcode e h
        · rw [List.mem_singleton] at h
          subst h
          right
          rfl
      by_cases hl : l = Node.null <;> by_cases hr : r = Node.null
      · simp only [encode_characters, if_neg h0, if_pos hl, if_pos hr] at hp
        exact hec p hp
      · simp only [encode_characters, if_neg h0, if_pos hl, if_neg hr] at hp
        exact ihr ec (code ++ ['1']) hec hcode1 p hp
      · simp only [encode_characters, if_neg h0, if_neg hl, if_pos hr] at hp
        exact ihl ec (code ++ ['0']) hec hcode0 p hp
      · simp only [encode_characters, if_neg h0, if_neg hl, if_neg hr] at hp
        exact ihr _ (code ++ ['1']) (ihl ec (code ++ ['0']) hec hcode0)
          hcode1 p hp

/-- C3: after construction from a readable text source, every code stored in
the code table is a non-empty sequence of the digits '0'/'1', and for
distinct symbols neither one's code is a prefix of the other's. -/
theorem claim_C3 (content : List Int) (hascii : ∀ c ∈ content, 0 ≤ c) :
    (∀ x w, assocFind (huffman_tree.construct (some content)).encoded_chars x
        = some w → w ≠ [] ∧ ∀ e ∈ w, e = '0' ∨ e = '1') ∧
    (∀ x y wx wy,
      assocFind (huffman_tree.construct (some content)).encoded_chars x
        = some wx →
      assocFind (huffman_tree.construct (some content)).encoded_chars y
        = some wy →
      x ≠ y → ¬ ∃ u, wx ++ u = wy) := by
  rcases hF : read_file (some content) with _ | ⟨⟨c, v⟩, F2⟩
  · have hec := construct_encoded_chars_zero (some content) hF
    rw [hec]
    constructor
    · intro x w h
      simp [assocFind] at h
    · intro x y wx wy h
      simp [assocFind] at h
  · rcases F2 with _ | ⟨p2, F3⟩
    · have hec := construct_encoded_chars_single (some content) c v hF
      rw [hec]
      constructor
      · intro x w h
        simp only [assocFind] at h
        split at h
        · rw [Option.some_inj] at h
          subst h
          refine ⟨by simp, ?_⟩
          intro e he
          rw [List.mem_singleton] at he
          subst he
          left
          rfl
        · simp at h
      · intro x y wx wy hx hy hxy
        simp only [assocFind] at hx hy
        split at hx
        · split at hy
          · rename_i h1 h2
            exact absurd (h1.trans h2.symm) hxy
          · simp at hy
        · simp at hx
    · have hlen2 : 1 < (read_file (some content)).length := by
        rw [hF]; simp
      have hlen1 : (read_file (some content)).length ≠ 1 := by omega
      obtain ⟨f0, l0, r0, hq⟩ := construct_root_internal (some content) hlen2
      have hproper : Proper (Node.node (-64) f0 l0 r0) := by
        apply construct_root_proper (some content)
          (read_file_keys_nonneg content hascii)
        rw [hq]
        simp
      have hec : (huffman_tree.construct (some content)).encoded_chars =
          encode_characters [] [] (Node.node (-64) f0 l0 r0) := by
        rw [construct_encoded_chars_multi (some content) hlen1]
        rw [construct_node_queue] at hq
        rw [hq]
      rw [hec]
      constructor
      · intro x w h
        refine ⟨code_ne_nil (-64) f0 l0 r0 hproper (by omega) x w h, ?_⟩
        have hmem : (x, w) ∈ encode_characters [] [] (Node.node (-64) f0 l0 r0) :=
          mem_of_assocFind _ x w h
        exact encode_characters_binary (Node.node (-64) f0 l0 r0) [] []
          (by simp) (by simp) (x, w) hmem
      · intro x y wx wy hx hy hxy hpre
        obtain ⟨u, hu⟩ := hpre
        obtain ⟨hx0, fx, lx, rx, htx⟩ := code_traversal _ hproper x wx hx
        obtain ⟨hy0, fy, ly, ry, hty⟩ := code_traversal _ hproper y wy hy
        have h1 := htx u
        have h2 := hty []
        rw [List.append_nil] at h2
        rw [← hu, h1] at h2
        simp only [InnerRes.ok.injEq, Node.node.injEq] at h2
        exact hxy h2.1.1

/-- Witness for C3 on the source "ab". -/
theorem claim_C3_witness :
    (∀ c ∈ [(97 : Int), 98], 0 ≤ c) ∧
    ((∀ x w, assocFind
        (huffman_tree.construct (some [97, 98])).encoded_chars x
        = some w → w ≠ [] ∧ ∀ e ∈ w, e = '0' ∨ e = '1') ∧
     (∀ x y wx wy,
        assocFind (huffman_tree.construct (some [97, 98])).encoded_chars x
          = some wx →
        assocFind (huffman_tree.construct (some [97, 98])).encoded_chars y
          = some wy →
        x ≠ y → ¬ ∃ u, wx ++ u = wy)) :=
  ⟨by decide, claim_C3 [97, 98] (by decide)⟩

/-- C1: for every readable ASCII source with at least one symbol, decoding
the encoding of the source through the same constructed object yields
exactly the original contents, newline emissions included. -/
theorem claim_C1 (content : List Int) (hne : content ≠ [])
    (hascii : ∀ c ∈ content, 0 ≤ c) :
    (huffman_tree.construct (some content)).decode
      ((huffman_tree.construct (some content)).encode (some content))
      = content := by
  have hmem : ∀ x ∈ content,
      ∃ v, assocFind (read_file (some content)) x = some v :=
    fun x hx => read_file_mem_content content x hx
  have hFne : read_file (some content) ≠ [] := by
    obtain ⟨c0, hc0⟩ : ∃ c0, c0 ∈ content := by
      cases content with
      | nil => exact absurd rfl hne
      | cons a l => exact ⟨a, by simp⟩
    obtain ⟨v, hv⟩ := hmem c0 hc0
    intro h0
    rw [h0] at hv
    simp [assocFind] at hv
  rcases hF : read_file (some content) with _ | ⟨⟨c, v⟩, F2⟩
  · exact absurd hF hFne
  · rcases F2 with _ | ⟨p2, F3⟩
    · -- exactly one distinct symbol
      have hec := construct_encoded_chars_single (some content) c v hF
      have hall : ∀ x ∈ content, x = c := by
        intro x hx
        obtain ⟨w, hw⟩ := hmem x hx
        rw [hF] at hw
        simp only [assocFind] at hw
        split at hw
        · assumption
        · simp at hw
      have henc : (huffman_tree.construct (some content)).encode (some content)
          = List.replicate content.length '0' := by
        simp only [huffman_tree.encode]
        rw [encodeLines_eq_chars, joinLines_getlines, hec,
          encodeLineChars_single c content hall]
      rw [henc]
      simp only [huffman_tree.decode, construct_frequencies, hF]
      norm_num
      rw [decodeSingle_replicate]
      exact (List.eq_replicate_of_mem hall).symm
    · -- at least two distinct symbols
      have hlen2 : 1 < (read_file (some content)).length := by
        rw [hF]; simp
      have hlen1 : (read_file (some content)).length ≠ 1 := by omega
      obtain ⟨f0, l0, r0, hqI⟩ := construct_root_internal (some content) hlen2
      obtain ⟨root, hq, hsum, hleaf⟩ := construct_queue_root (some content) hFne
      have hroot : root = Node.node (-64) f0 l0 r0 := by
        rw [hq] at hqI
        simp only [List.cons.injEq, and_true] at hqI
        exact hqI
      subst hroot
      have hproper : Proper (Node.node (-64) f0 l0 r0) := by
        apply construct_root_proper (some content)
          (read_file_keys_nonneg content hascii)
        rw [hq]
        simp
      have hec : (huffman_tree.construct (some content)).encoded_chars =
          encode_characters [] [] (Node.node (-64) f0 l0 r0) := by
        rw [construct_encoded_chars_multi (some content) hlen1]
        rw [construct_node_queue] at hq
        rw [hq]
      have hfind : ∀ x ∈ content, ∃ w,
          assocFind (encode_characters [] [] (Node.node (-64) f0 l0 r0)) x
            = some w := by
        intro x hx
        apply encode_characters_mem_find _ hproper [] [] x trivial
        rw [hleaf x]
        obtain ⟨v2, hv2⟩ := hmem x hx
        exact ⟨(x, v2), mem_of_assocFind _ _ _ hv2, rfl, hascii x hx⟩
      obtain ⟨s, hs⟩ := encodeLineChars_total _ content hfind
      have henc : (huffman_tree.construct (some content)).encode (some content)
          = s := by
        simp only [huffman_tree.encode]
        rw [encodeLines_eq_chars, joinLines_getlines, hec, hs]
      rw [henc]
      have hspec : ∀ x w,
          assocFind (encode_characters [] [] (Node.node (-64) f0 l0 r0)) x
            = some w →
          w ≠ [] ∧ ∃ fx lx rx, ∀ rest,
            decodeInner (Node.node (-64) f0 l0 r0) (w ++ rest)
              = .ok (.node x fx lx rx) rest := by
        intro x w hw
        refine ⟨code_ne_nil (-64) f0 l0 r0 hproper (by omega) x w hw, ?_⟩
        obtain ⟨_, fx, lx, rx, ht⟩ := code_traversal _ hproper x w hw
        exact ⟨fx, lx, rx, ht⟩
      have hdl : decodeLoop (Node.node (-64) f0 l0 r0) s = some content :=
        decodeLoop_codes (-64) f0 l0 r0 _ hspec content s hs
      simp only [huffman_tree.decode, construct_frequencies, hF]
      rw [if_pos (by simp)]
      rw [hq]
      simp only []
      rw [hdl]

/-- Witness for C1 on the source "a\nb". -/
theorem claim_C1_witness :
    (([97, 10, 98] : List Int) ≠ [] ∧ ∀ c ∈ [(97 : Int), 10, 98], 0 ≤ c) ∧
    (huffman_tree.construct (some [97, 10, 98])).decode
      ((huffman_tree.construct (some [97, 10, 98])).encode
        (some [97, 10, 98])) = [97, 10, 98] :=
  ⟨⟨by decide, by decide⟩, claim_C1 [97, 10, 98] (by decide) (by decide)⟩

/-! ## The greedy merge cost on weight lists

`hW` is the total cost charged by the constructor's merge loop viewed on
weights alone: repeatedly take the two smallest weights, pay their sum, and
put the sum back.  It only depends on the multiset of weights. -/

/-- Insertion into an ascending list, after all elements not larger (the
weight-level shadow of `pqPush`). -/
def insertSorted (w : Int) : List Int → List Int
  | [] => [w]
  | a :: rest => if w < a then w :: a :: rest else a :: insertSorted w rest

/-- Insertion sort, ascending. -/
def sortInts (l : List Int) : List Int :=
  l.foldl (fun acc w => insertSorted w acc) []

/-- Fuelled merge-cost recursion on an ascending list. -/
def hSteps : Nat → List Int → Int
  | 0, _ => 0
  | _ + 1, [] => 0
  | _ + 1, [_] => 0
  | k + 1, a :: b :: rest => (a + b) + hSteps k (insertSorted (a + b) rest)

/-- The greedy merge cost of a list of weights. -/
def hW (l : List Int) : Int := hSteps l.length (sortInts l)

theorem insertSorted_perm (w : Int) (l : List Int) :
    List.Perm (insertSorted w l) (w :: l) := by
  induction l with
  | nil => exact List.Perm.refl _
  | cons a rest ih =>
    simp only [insertSorted]
    split
    · exact List.Perm.refl _
    · exact ((ih.cons a).trans (List.Perm.swap w a rest))

theorem insertSorted_length (w : Int) (l : List Int) :
    (insertSorted w l).length = l.length + 1 :=
  (insertSorted_perm w l).length_eq

theorem insertSorted_sorted (w : Int) (l : List Int)
    (hl : l.Sorted (· ≤ ·)) : (insertSorted w l).Sorted (· ≤ ·) := by
  induction l with
  | nil => simp [insertSorted]
  | cons a rest ih =>
    rw [List.sorted_cons] at hl
    obtain ⟨ha, hrest⟩ := hl
    simp only [insertSorted]
    split
    · rw [List.sorted_cons]
      constructor
      · intro b hb
        rw [List.mem_cons] at hb
        rcases hb with h | h
        · omega
        · have := ha b h; omega
      · rw [List.sorted_cons]
        exact ⟨ha, hrest⟩
    · rw [List.sorted_cons]
      constructor
      · intro b hb
        have := (insertSorted_perm w rest).mem_iff.1 hb
        rw [List.mem_cons] at this
        rcases this with h | h
        · omega
        · exact ha b h
      · exact ih hrest

theorem sortInts_aux_perm (l : List Int) :
    ∀ acc : List Int,
      List.Perm (l.foldl (fun acc w => insertSorted w acc) acc) (l ++ acc) := by
  induction l with
  | nil => intro acc; simp
  | cons w rest ih =>
    intro acc
    simp only [List.foldl_cons]
    refine (ih (insertSorted w acc)).trans ?_
    have h1 : List.Perm (insertSorted w acc) (w :: acc) := insertSorted_perm w acc
    refine (List.Perm.append_left rest h1).trans ?_
    have := @List.perm_middle Int w rest acc
    simpa using this

theorem sortInts_perm (l : List Int) : List.Perm (sortInts l) l := by
  have := sortInts_aux_perm l []
  simpa [sortInts] using this

theorem sortInts_aux_sorted (l : List Int) :
    ∀ acc : List Int, acc.Sorted (· ≤ ·) →
      (l.foldl (fun acc w => insertSorted w acc) acc).Sorted (· ≤ ·) := by
  induction l with
  | nil => intro acc h; exact h
  | cons w rest ih =>
    intro acc h
    simp only [List.foldl_cons]
    exact ih _ (insertSorted_sorted w acc h)

theorem sortInts_sorted (l : List Int) : (sortInts l).Sorted (· ≤ ·) :=
  sortInts_aux_sorted l [] (by simp)

theorem sortInts_eq_of_perm (l1 l2 : List Int) (h : List.Perm l1 l2) :
    sortInts l1 = sortInts l2 :=
  List.eq_of_perm_of_sorted
    ((sortInts_perm l1).trans (h.trans (sortInts_perm l2).symm))
    (sortInts_sorted l1) (sortInts_sorted l2)

theorem hW_perm (l1 l2 : List Int) (h : List.Perm l1 l2) : hW l1 = hW l2 := by
  rw [hW, hW, sortInts_eq_of_perm l1 l2 h, h.length_eq]

theorem hSteps_fuel (k : Nat) :
    ∀ l : List Int, l.length ≤ k → hSteps k l = hSteps l.length l := by
  induction k with
  | zero =>
    intro l hl
    have : l = [] := List.eq_nil_of_length_eq_zero (by omega)
    subst this
    rfl
  | succ k ih =>
    intro l hl
    match l with
    | [] => rfl
    | [a] => rfl
    | a :: b :: rest =>
      simp only [hSteps, List.length_cons]
      rw [ih _ (by rw [insertSorted_length]; simp only [List.length_cons] at hl; omega)]
      rw [show (insertSorted (a + b) rest).length = rest.length + 1 from
        insertSorted_length _ _]

theorem sortInts_sorted_id (l : List Int) (h : l.Sorted (· ≤ ·)) :
    sortInts l = l :=
  List.eq_of_perm_of_sorted (sortInts_perm l) (sortInts_sorted l) h

/-- Unfolding `hW` at the two minima: if `l` is, up to permutation,
`m1 :: m2 :: rest` with `m1 ≤ m2 ≤` everything in `rest`, then the greedy
cost merges `m1` and `m2` first. -/
theorem hW_merge (l : List Int) (m1 m2 : Int) (rest : List Int)
    (hperm : List.Perm l (m1 :: m2 :: rest))
    (h12 : m1 ≤ m2) (hrest : ∀ w ∈ rest, m2 ≤ w) :
    hW l = m1 + m2 + hW ((m1 + m2) :: rest) := by
  have hsortedhead : (m1 :: m2 :: sortInts rest).Sorted (· ≤ ·) := by
    rw [List.sorted_cons]
    constructor
    · intro b hb
      rw [List.mem_cons] at hb
      rcases hb with h | h
      · omega
      · have := hrest b ((sortInts_perm rest).mem_iff.1 h)
        omega
    · rw [List.sorted_cons]
      refine ⟨?_, sortInts_sorted rest⟩
      intro b hb
      exact hrest b ((sortInts_perm rest).mem_iff.1 hb)
  have hkey : sortInts l = m1 :: m2 :: sortInts rest :=
    List.eq_of_perm_of_sorted
      ((sortInts_perm l).trans
        (hperm.trans (((sortInts_perm rest).symm.cons m2).cons m1)))
      (sortInts_sorted l) hsortedhead
  have hlen : l.length = rest.length + 2 := by
    rw [hperm.length_eq]
    simp
  rw [hW, hkey, hlen]
  simp only [hSteps]
  have hfst : (insertSorted (m1 + m2) (sortInts rest)) =
      sortInts ((m1 + m2) :: rest) :=
    List.eq_of_perm_of_sorted
      ((insertSorted_perm _ _).trans
        (((sortInts_perm rest).cons _).trans (sortInts_perm _).symm))
      (insertSorted_sorted _ _ (sortInts_sorted rest))
      (sortInts_sorted _)
  rw [hfst]
  rw [hSteps_fuel (rest.length + 1) (sortInts ((m1 + m2) :: rest))
    (by rw [(sortInts_perm _).length_eq]; simp)]
  rw [hW]
  rw [(sortInts_perm ((m1 + m2) :: rest)).length_eq]

/-! ## Cost of the constructed tree -/

/-- The (character, frequency) pairs at the leaves, in traversal order. -/
def leafPairs : Node → List (Int × Int)
  | .null => []
  | .node c f l r => if 0 ≤ c then [(c, f)] else leafPairs l ++ leafPairs r

/-- Total leaf frequency of a (sub)tree. -/
def sumLeafW : Node → Int
  | .null => 0
  | .node c f l r => if 0 ≤ c then f else sumLeafW l + sumLeafW r

/-- Internal nodes carry the sum of the leaf frequencies below them. -/
def FreqOK : Node → Prop
  | .null => True
  | .node c f l r => f = sumLeafW (.node c f l r) ∧ FreqOK l ∧ FreqOK r

/-- Total cost charged by the merge steps below a node: each internal node
contributes the stored frequencies of its two children. -/
def treeCost : Node → Int
  | .null => 0
  | .node c _ l r =>
    if 0 ≤ c then 0
    else Node.frequency l + Node.frequency r + treeCost l + treeCost r

theorem leafChars_eq_map (n : Node) :
    leafChars n = (leafPairs n).map Prod.fst := by
  induction n with
  | null => rfl
  | node c f l r ihl ihr =>
    simp only [leafChars, leafPairs]
    split
    · rfl
    · rw [List.map_append, ihl, ihr]

theorem sumLeafW_eq (n : Node) :
    sumLeafW n = ((leafPairs n).map (fun p => p.2)).sum := by
  induction n with
  | null => rfl
  | node c f l r ihl ihr =>
    simp only [sumLeafW, leafPairs]
    split
    · simp
    · rw [List.map_append, List.sum_append, ihl, ihr]

theorem FreqOK.frequency_eq {n : Node} (h : FreqOK n) :
    n.frequency = sumLeafW n := by
  cases n with
  | null => rfl
  | node c f l r => exact h.1

theorem FreqOK.merge {a b : Node} (ha : FreqOK a) (hb : FreqOK b) :
    FreqOK (Node.node (-64) (a.frequency + b.frequency) a b) := by
  refine ⟨?_, ha, hb⟩
  show a.frequency + b.frequency = sumLeafW (Node.node (-64) _ a b)
  simp only [sumLeafW]
  rw [if_neg (by omega)]
  rw [ha.frequency_eq, hb.frequency_eq]

theorem pqPush_perm (n : Node) (q : List Node) :
    List.Perm (pqPush n q) (n :: q) := by
  induction q with
  | nil => exact List.Perm.refl _
  | cons m rest ih =>
    simp only [pqPush]
    split
    · exact List.Perm.refl _
    · exact (ih.cons m).trans (List.Perm.swap n m rest)

theorem pqPush_map_sum (g : Node → Int) (n : Node) (q : List Node) :
    ((pqPush n q).map g).sum = g n + (q.map g).sum :=
  (((pqPush_perm n q).map g).sum_eq).trans (by simp)

theorem pqPush_map_frequency (n : Node) (q : List Node) :
    (pqPush n q).map Node.frequency =
      insertSorted n.frequency (q.map Node.frequency) := by
  induction q with
  | nil => rfl
  | cons m rest ih =>
    simp only [pqPush, insertSorted, List.map_cons]
    split
    · simp
    · rw [List.map_cons, ih]

/-- One round of the merge loop preserves the leaf pairs. -/
theorem mergeLoop_leafPairs_aux (k : Nat) :
    ∀ q : List Node, q.length ≤ k →
      List.Perm ((mergeLoop q).map leafPairs).flatten
        ((q.map leafPairs).flatten) := by
  induction k with
  | zero =>
    intro q hq
    cases q with
    | nil => rw [mergeLoop_nil]
    | cons a rest => simp at hq
  | succ k ih =>
    intro q hq
    match q with
    | [] => rw [mergeLoop_nil]
    | [a] => rw [mergeLoop_single]
    | a :: b :: rest =>
      rw [mergeLoop_cons₂]
      refine (ih _ ?_).trans ?_
      · rw [pqPush_length]
        simp only [List.length_cons] at hq
        omega
      · refine (((pqPush_perm _ rest).map leafPairs).flatten).trans ?_
        simp only [List.map_cons, List.flatten_cons]
        rw [show leafPairs (Node.node (-64)
            (a.frequency + b.frequency) a b) = leafPairs a ++ leafPairs b by
          simp only [leafPairs]; rw [if_neg (by omega)]]
        rw [List.append_assoc]

theorem mergeLoop_leafPairs (q : List Node) :
    List.Perm ((mergeLoop q).map leafPairs).flatten
      ((q.map leafPairs).flatten) :=
  mergeLoop_leafPairs_aux q.length q le_rfl

/-- The merge loop charges exactly the greedy weight-merge cost. -/
theorem mergeLoop_treeCost_aux (k : Nat) :
    ∀ q : List Node, q.length ≤ k → q ≠ [] →
      ((mergeLoop q).map treeCost).sum =
        (q.map treeCost).sum + hSteps q.length (q.map Node.frequency) := by
  induction k with
  | zero =>
    intro q hq hne
    cases q with
    | nil => exact absurd rfl hne
    | cons a rest => simp at hq
  | succ k ih =>
    intro q hq hne
    match q with
    | [] => exact absurd rfl hne
    | [a] => rw [mergeLoop_single]; simp [hSteps]
    | a :: b :: rest =>
      rw [mergeLoop_cons₂]
      rw [ih _ (by rw [pqPush_length]; simp only [List.length_cons] at hq; omega)
        (by intro h; have := congrArg List.length h; rw [pqPush_length] at this; simp at this)]
      rw [pqPush_map_sum, pqPush_map_frequency, pqPush_length]
      have htc : treeCost (Node.node (-64) (a.frequency + b.frequency) a b) =
          a.frequency + b.frequency + treeCost a + treeCost b := by
        simp only [treeCost]
        rw [if_neg (by omega)]
      rw [htc]
      simp only [List.map_cons, List.sum_cons, List.length_cons]
      have hfreq : Node.frequency (Node.node (-64)
          (a.frequency + b.frequency) a b) = a.frequency + b.frequency := rfl
      rw [hfreq]
      simp only [hSteps]
      ring

theorem mapSorted_keys_nodup (F : List (Int × Int)) (h : mapSorted F) :
    (F.map Prod.fst).Nodup := by
  induction F with
  | nil => simp
  | cons p rest ih =>
    obtain ⟨hp, hrest⟩ := h
    simp only [List.map_cons, List.nodup_cons]
    constructor
    · intro hmem
      rcases List.mem_map.1 hmem with ⟨q, hq, hq1⟩
      have := hp q hq
      omega
    · exact ih hrest

theorem initQueue_aux_map_frequency (F : List (Int × Int))
    (hpos : ∀ p ∈ F, 0 < p.2) :
    ∀ acc : List Node,
      ((F.foldl (fun q p => if p.2 > 0 then
          pqPush (Node.node p.1 p.2 .null .null) q else q) acc).map
        Node.frequency) =
      F.foldl (fun acc2 p => insertSorted p.2 acc2) (acc.map Node.frequency) := by
  induction F with
  | nil => intro acc; rfl
  | cons p rest ih =>
    intro acc
    simp only [List.foldl_cons]
    rw [if_pos (hpos p (by simp))]
    rw [ih (fun q hq => hpos q (List.mem_cons_of_mem _ hq))]
    rw [pqPush_map_frequency]
    rfl

theorem initQueue_map_frequency (F : List (Int × Int))
    (hpos : ∀ p ∈ F, 0 < p.2) :
    (initQueue F).map Node.frequency = sortInts (F.map (fun p => p.2)) := by
  rw [initQueue, initQueue_aux_map_frequency F hpos []]
  rw [sortInts, List.foldl_map]
  rfl

theorem initQueue_aux_leafPairs (F : List (Int × Int))
    (hpos : ∀ p ∈ F, 0 < p.2) (hkeys : ∀ p ∈ F, 0 ≤ p.1) :
    ∀ acc : List Node,
      List.Perm (((F.foldl (fun q p => if p.2 > 0 then
          pqPush (Node.node p.1 p.2 .null .null) q else q) acc).map
        leafPairs).flatten)
        (F ++ ((acc.map leafPairs).flatten)) := by
  induction F with
  | nil => intro acc; simp
  | cons p rest ih =>
    intro acc
    simp only [List.foldl_cons]
    rw [if_pos (hpos p (by simp))]
    refine (ih (fun q hq => hpos q (List.mem_cons_of_mem _ hq))
      (fun q hq => hkeys q (List.mem_cons_of_mem _ hq)) _).trans ?_
    have h1 : List.Perm (((pqPush (Node.node p.1 p.2 .null .null) acc).map
        leafPairs).flatten)
        ((p.1, p.2) :: (acc.map leafPairs).flatten) := by
      refine (((pqPush_perm _ acc).map leafPairs).flatten).trans ?_
      simp only [List.map_cons, List.flatten_cons]
      rw [show leafPairs (Node.node p.1 p.2 .null .null) = [(p.1, p.2)] by
        simp only [leafPairs]; rw [if_pos (hkeys p (by simp))]]
      rfl
    refine (List.Perm.append_left rest h1).trans ?_
    have := @List.perm_middle (Int × Int) (p.1, p.2) rest
      ((acc.map leafPairs).flatten)
    simpa using this

theorem initQueue_leafPairs (F : List (Int × Int))
    (hpos : ∀ p ∈ F, 0 < p.2) (hkeys : ∀ p ∈ F, 0 ≤ p.1) :
    List.Perm (((initQueue F).map leafPairs).flatten) F := by
  have := initQueue_aux_leafPairs F hpos hkeys []
  simpa [initQueue] using this
theorem encode_characters_keys (nd : Node) :
    ∀ (ec : List (Int × List Char)) (code : List Char) (x : Int) (w : List Char),
      mapSorted ec →
      assocFind (encode_characters ec code nd) x = some w →
      assocFind ec x = some w ∨ x ∈ leafChars nd := by
  induction nd with
  | null => intro ec code x w _ h; exact Or.inl h
  | node c f l r ihl ihr =>
    intro ec code x w hec h
    by_cases h0 : 0 ≤ c
    · simp only [encode_characters, if_pos h0] at h
      rw [assocFind_assocEmplace _ _ _ _ hec] at h
      by_cases hx : x = c
      · right
        simp only [leafChars]
        rw [if_pos h0, hx]
        exact List.mem_singleton_self c
      · rw [if_neg hx] at h
        exact Or.inl h
    · have hlc : leafChars (Node.node c f l r) = leafChars l ++ leafChars r := by
        simp only [leafChars]
        rw [if_neg h0]
      rw [hlc]
      by_cases hl : l = Node.null <;> by_cases hr : r = Node.null
      · simp only [encode_characters, if_neg h0, if_pos hl, if_pos hr] at h
        exact Or.inl h
      · simp only [encode_characters, if_neg h0, if_pos hl, if_neg hr] at h
        rcases ihr ec (code ++ ['1']) x w hec h with h2 | h2
        · exact Or.inl h2
        · right; rw [List.mem_append]; exact Or.inr h2
      · simp only [encode_characters, if_neg h0, if_neg hl, if_pos hr] at h
        rcases ihl ec (code ++ ['0']) x w hec h with h2 | h2
        · exact Or.inl h2
        · right; rw [List.mem_append]; exact Or.inl h2
      · simp only [encode_characters, if_neg h0, if_neg hl, if_neg hr] at h
        rcases ihr _ (code ++ ['1']) x w
            (encode_characters_sorted l ec _ hec) h with h2 | h2
        · rcases ihl ec (code ++ ['0']) x w hec h2 with h3 | h3
          · exact Or.inl h3
          · right; rw [List.mem_append]; exact Or.inl h3
        · right; rw [List.mem_append]; exact Or.inr h2

/-- The cost identity for the produced code table: starting from a table in
which none of the tree's leaf characters occur, with the code prefix `pre`,
the weighted sum of the assigned code lengths over the leaves equals `pre`'s
contribution plus the tree's merge cost. -/
theorem encode_characters_cost (nd : Node) (hp : Proper nd) :
    ∀ (ec : List (Int × List Char)) (pre : List Char),
      mapSorted ec → FreqOK nd → (leafChars nd).Nodup →
      (∀ x ∈ leafChars nd, assocFind ec x = none) →
      ((leafPairs nd).map (fun p =>
          p.2 * (((assocFind (encode_characters ec pre nd) p.1).getD
            []).length : Int))).sum
        = (pre.length : Int) * sumLeafW nd + treeCost nd := by
  induction hp with
  | leaf c f l r h0 =>
    intro ec pre hec hfOK hnd hfresh
    have hfc : assocFind ec c = none := by
      apply hfresh
      simp only [leafChars]
      rw [if_pos h0]
      exact List.mem_singleton_self c
    have hlp : leafPairs (Node.node c f l r) = [(c, f)] := by
      simp only [leafPairs]
      rw [if_pos h0]
    have henc : encode_characters ec pre (Node.node c f l r)
        = assocEmplace ec c pre := by
      simp only [encode_characters]
      rw [if_pos h0]
    have hslw : sumLeafW (Node.node c f l r) = f := by
      simp only [sumLeafW]
      rw [if_pos h0]
    have htc : treeCost (Node.node c f l r) = 0 := by
      simp only [treeCost]
      rw [if_pos h0]
    rw [hlp, henc, hslw, htc]
    simp only [List.map_cons, List.map_nil, List.sum_cons, List.sum_nil]
    rw [assocFind_assocEmplace _ _ _ _ hec, if_pos rfl, hfc]
    simp only [Option.getD_none, Option.getD_some]
    ring
  | internal c f l r hneg hpl hpr ihl ihr =>
    intro ec pre hec hfOK hnd hfresh
    have hlnn : l ≠ Node.null := hpl.ne_null
    have hrnn : r ≠ Node.null := hpr.ne_null
    have hc : ¬ 0 ≤ c := by omega
    obtain ⟨hf, hfl, hfr⟩ := hfOK
    have hlc : leafChars (Node.node c f l r) = leafChars l ++ leafChars r := by
      simp only [leafChars]
      rw [if_neg hc]
    rw [hlc] at hnd hfresh
    have hndl : (leafChars l).Nodup := hnd.of_append_left
    have hndr : (leafChars r).Nodup := hnd.of_append_right
    have hdisj : List.Disjoint (leafChars l) (leafChars r) :=
      (List.nodup_append.mp hnd).2.2
    have hec1 : mapSorted (encode_characters ec (pre ++ ['0']) l) :=
      encode_characters_sorted l ec _ hec
    have hfreshl : ∀ x ∈ leafChars l, assocFind ec x = none :=
      fun x hx => hfresh x (List.mem_append.mpr (Or.inl hx))
    have hfreshr : ∀ x ∈ leafChars r,
        assocFind (encode_characters ec (pre ++ ['0']) l) x = none := by
      intro x hx
      cases hfind : assocFind (encode_characters ec (pre ++ ['0']) l) x with
      | none => rfl
      | some w =>
        rcases encode_characters_keys l ec (pre ++ ['0']) x w hec hfind with h | h
        · rw [hfresh x (List.mem_append.mpr (Or.inr hx))] at h
          exact Option.noConfusion h
        · exact absurd hx (hdisj h)
    have hsuml := ihl ec (pre ++ ['0']) hec hfl hndl hfreshl
    have hsumr := ihr (encode_characters ec (pre ++ ['0']) l) (pre ++ ['1'])
      hec1 hfr hndr hfreshr
    have hcongr : ∀ p ∈ leafPairs l,
        assocFind (encode_characters (encode_characters ec (pre ++ ['0']) l)
            (pre ++ ['1']) r) p.1
          = assocFind (encode_characters ec (pre ++ ['0']) l) p.1 := by
      intro p hp
      have hmem : p.1 ∈ leafChars l := by
        rw [leafChars_eq_map]
        exact List.mem_map.mpr ⟨p, hp, rfl⟩
      obtain ⟨w, hw⟩ :=
        encode_characters_mem_find l hpl ec (pre ++ ['0']) p.1 hec hmem
      rw [hw]
      exact encode_characters_find_mono r _ _ _ _ hec1 hw
    have hlp : leafPairs (Node.node c f l r) = leafPairs l ++ leafPairs r := by
      simp only [leafPairs]
      rw [if_neg hc]
    have hslw : sumLeafW (Node.node c f l r) = sumLeafW l + sumLeafW r := by
      simp only [sumLeafW]
      rw [if_neg hc]
    have htc : treeCost (Node.node c f l r)
        = Node.frequency l + Node.frequency r + treeCost l + treeCost r := by
      simp only [treeCost]
      rw [if_neg hc]
    simp only [encode_characters, if_neg hc, if_neg hlnn, if_neg hrnn]
    rw [hlp, List.map_append, List.sum_append, hslw, htc]
    have hml : ((leafPairs l).map (fun p =>
        p.2 * (((assocFind (encode_characters (encode_characters ec
          (pre ++ ['0']) l) (pre ++ ['1']) r) p.1).getD []).length : Int))).sum
        = ((leafPairs l).map (fun p =>
        p.2 * (((assocFind (encode_characters ec (pre ++ ['0']) l) p.1).getD
          []).length : Int))).sum := by
      congr 1
      apply List.map_congr_left
      intro p hp
      rw [hcongr p hp]
    rw [hml, hsuml, hsumr, hfl.frequency_eq, hfr.frequency_eq]
    simp only [List.length_append, List.length_cons, List.length_nil]
    push_cast
    ring

/-- Cost of encoding the observed frequencies with a code assignment: each
character's count times its code's length. -/
def tableCost (F : List (Int × Int)) (code : Int → List Char) : Int :=
  (F.map (fun p => p.2 * ((code p.1).length : Int))).sum

theorem initQueue_FreqOK (F : List (Int × Int)) (hkeys : ∀ p ∈ F, 0 ≤ p.1) :
    ∀ n ∈ initQueue F, FreqOK n := by
  intro n hn
  rw [initQueue_mem] at hn
  obtain ⟨p, hp, hp0, hn⟩ := hn
  subst hn
  refine ⟨?_, trivial, trivial⟩
  show p.2 = sumLeafW (Node.node p.1 p.2 .null .null)
  simp only [sumLeafW]
  rw [if_pos (hkeys p hp)]

theorem initQueue_treeCost (F : List (Int × Int)) (hkeys : ∀ p ∈ F, 0 ≤ p.1) :
    ((initQueue F).map treeCost).sum = 0 := by
  apply List.sum_eq_zero
  intro x hx
  rcases List.mem_map.1 hx with ⟨n, hn, hxn⟩
  subst hxn
  rw [initQueue_mem] at hn
  obtain ⟨p, hp, hp0, hn⟩ := hn
  subst hn
  simp only [treeCost]
  rw [if_pos (hkeys p hp)]

/-- The constructed table's cost on the observed frequency table equals the
greedy merge cost of the frequency multiset. -/
theorem huffman_table_cost (file : Option (List Int))
    (hkeys : ∀ p ∈ read_file file, 0 ≤ p.1)
    (h2 : 1 < (read_file file).length) :
    tableCost (read_file file)
      (fun x =>
        (assocFind (huffman_tree.construct file).encoded_chars x).getD [])
      = hW ((read_file file).map (fun p => p.2)) := by
  have hF : ∀ p ∈ read_file file, 0 < p.2 := by
    intro p hp
    have := read_file_pos file p hp
    omega
  have hqne : initQueue (read_file file) ≠ [] := by
    intro h
    have hl := initQueue_length (read_file file) hF
    rw [h] at hl
    simp only [List.length_nil] at hl
    omega
  obtain ⟨root, hq⟩ : ∃ root, mergeLoop (initQueue (read_file file)) = [root] := by
    have hlen := mergeLoop_length_one (initQueue (read_file file)) hqne
    cases hmq : mergeLoop (initQueue (read_file file)) with
    | nil => rw [hmq] at hlen; simp at hlen
    | cons a rest =>
      rw [hmq] at hlen
      simp only [List.length_cons] at hlen
      have hre : rest = [] := List.eq_nil_of_length_eq_zero (by omega)
      exact ⟨a, by rw [hre]⟩
  have hproper : Proper root :=
    construct_root_proper file hkeys root
      (by rw [construct_node_queue, hq]; exact List.mem_singleton_self root)
  have hfOK : FreqOK root := by
    have hcl := mergeLoop_closed FreqOK (fun a b ha hb => FreqOK.merge ha hb)
      (initQueue (read_file file)) (initQueue_FreqOK _ hkeys) root
    rw [hq] at hcl
    exact hcl (List.mem_singleton_self root)
  have hlpperm : List.Perm (leafPairs root) (read_file file) := by
    have h1 := mergeLoop_leafPairs (initQueue (read_file file))
    rw [hq] at h1
    simp only [List.map_cons, List.map_nil, List.flatten_cons, List.flatten_nil,
      List.append_nil] at h1
    exact h1.trans (initQueue_leafPairs _ hF hkeys)
  have hnd : (leafChars root).Nodup := by
    rw [leafChars_eq_map]
    exact ((hlpperm.map Prod.fst).nodup_iff).2
      (mapSorted_keys_nodup _ (read_file_sorted file))
  have hcost := encode_characters_cost root hproper [] [] trivial hfOK hnd
    (fun x _ => rfl)
  rw [show ((([] : List Char).length : Int)) = 0 from rfl, zero_mul,
    zero_add] at hcost
  have hec : (huffman_tree.construct file).encoded_chars
      = encode_characters [] [] root := by
    rw [construct_encoded_chars_multi file (by omega), hq]
  have hfinal : tableCost (read_file file)
      (fun x => (assocFind (encode_characters [] [] root) x).getD [])
      = treeCost root := by
    have hsum : ((read_file file).map (fun p =>
        p.2 * (((assocFind (encode_characters [] [] root) p.1).getD
          []).length : Int))).sum
        = ((leafPairs root).map (fun p =>
        p.2 * (((assocFind (encode_characters [] [] root) p.1).getD
          []).length : Int))).sum :=
      (hlpperm.symm.map _).sum_eq
    simp only [tableCost]
    rw [hsum]
    exact hcost
  rw [hec, hfinal]
  have htc := mergeLoop_treeCost_aux (initQueue (read_file file)).length
    (initQueue (read_file file)) le_rfl hqne
  rw [hq] at htc
  simp only [List.map_cons, List.map_nil, List.sum_cons, List.sum_nil,
    add_zero] at htc
  rw [initQueue_treeCost _ hkeys, initQueue_map_frequency _ hF,
    initQueue_length _ hF] at htc
  rw [htc, hW, List.length_map, zero_add]

/-! ## Optimality: lower bound over arbitrary prefix-free binary codes -/

/-- Total cost of a weighted code list: weight times code length, summed. -/
def codeCost (I : List (Int × List Char)) : Int :=
  (I.map (fun p => p.1 * ((p.2.length : Int)))).sum

/-- Total code length of a weighted code list (induction measure). -/
def codeMeasure (I : List (Int × List Char)) : Nat :=
  (I.map (fun p => p.2.length)).sum

/-- Neither code extends the other. -/
def NoPre (x y : List Char) : Prop :=
  (¬ ∃ u, x ++ u = y) ∧ (¬ ∃ u, y ++ u = x)

/-- Pairwise prefix-freeness of a list of codes. -/
def CodesPF (cs : List (List Char)) : Prop := List.Pairwise NoPre cs

/-- The other binary digit. -/
def flipc (c : Char) : Char := if c = '0' then '1' else '0'

theorem noPre_symm : Symmetric NoPre := fun _ _ h => ⟨h.2, h.1⟩

theorem codesPF_perm {cs ds : List (List Char)} (h : List.Perm cs ds) :
    CodesPF cs ↔ CodesPF ds :=
  h.pairwise_iff (fun h2 => ⟨h2.2, h2.1⟩)

theorem codeCost_perm {I J : List (Int × List Char)} (h : List.Perm I J) :
    codeCost I = codeCost J :=
  (h.map _).sum_eq

theorem codeMeasure_perm {I J : List (Int × List Char)} (h : List.Perm I J) :
    codeMeasure I = codeMeasure J :=
  (h.map _).sum_eq

theorem codeMeasure_eq_codes (I : List (Int × List Char)) :
    codeMeasure I = ((I.map (fun p => p.2)).map List.length).sum := by
  rw [codeMeasure, List.map_map]
  rfl

theorem flipc_ne (d : Char) (hd : d = '0' ∨ d = '1') : d ≠ flipc d := by
  rcases hd with h | h <;> subst h <;> simp [flipc]

theorem binary_eq_or_flip (d e : Char) (hd : d = '0' ∨ d = '1')
    (he : e = '0' ∨ e = '1') : e = d ∨ e = flipc d := by
  rcases hd with h | h <;> rcases he with h2 | h2 <;> subst h <;> subst h2 <;>
    simp [flipc]

theorem exists_max_len (I : List (Int × List Char)) (h : I ≠ []) :
    ∃ z ∈ I, ∀ q ∈ I, q.2.length ≤ z.2.length := by
  induction I with
  | nil => exact absurd rfl h
  | cons x rest ih =>
    by_cases hre : rest = []
    · subst hre
      refine ⟨x, by simp, ?_⟩
      intro q hq
      rw [List.mem_singleton] at hq
      subst hq
      exact le_rfl
    · obtain ⟨z, hz, hmax⟩ := ih hre
      by_cases hc : z.2.length ≤ x.2.length
      · refine ⟨x, by simp, ?_⟩
        intro q hq
        rw [List.mem_cons] at hq
        rcases hq with h2 | h2
        · subst h2; exact le_rfl
        · exact le_trans (hmax q h2) hc
      · refine ⟨z, List.mem_cons_of_mem _ hz, ?_⟩
        intro q hq
        rw [List.mem_cons] at hq
        rcases hq with h2 | h2
        · subst h2; omega
        · exact hmax q h2

theorem exists_concat (l : List Char) (h : l ≠ []) : ∃ t d, l = t ++ [d] := by
  induction l with
  | nil => exact absurd rfl h
  | cons a rest ih =>
    by_cases hre : rest = []
    · subst hre
      exact ⟨[], a, rfl⟩
    · obtain ⟨t, d, ht⟩ := ih hre
      exact ⟨a :: t, d, by rw [ht]; rfl⟩

theorem hW_nil : hW [] = 0 := rfl

theorem hW_single (w : Int) : hW [w] = 0 := rfl

theorem hW_pair (u v : Int) : hW [u, v] = u + v := by
  rw [hW]
  show hSteps 2 (sortInts [u, v]) = u + v
  rw [show sortInts [u, v] = insertSorted v [u] from rfl]
  simp only [insertSorted]
  by_cases h : v < u
  · rw [if_pos h]
    show (v + u) + hSteps 1 (insertSorted (v + u) []) = u + v
    simp only [insertSorted, hSteps]
    ring
  · rw [if_neg h]
    show (u + v) + hSteps 1 (insertSorted (u + v) []) = u + v
    simp only [insertSorted, hSteps]
    ring

/-- Minimum of `w` and the elements of a list. -/
def listMin (w : Int) (l : List Int) : Int := l.foldr min w

theorem listMin_le (w : Int) (l : List Int) :
    listMin w l ≤ w ∧ ∀ v ∈ l, listMin w l ≤ v := by
  induction l with
  | nil => exact ⟨le_rfl, by simp⟩
  | cons x rest ih =>
    have hx : listMin w (x :: rest) = min x (listMin w rest) := rfl
    refine ⟨?_, ?_⟩
    · rw [hx]
      exact le_trans (min_le_right _ _) ih.1
    · intro v hv
      rw [List.mem_cons] at hv
      rcases hv with h | h
      · subst h
        rw [hx]
        exact min_le_left _ _
      · rw [hx]
        exact le_trans (min_le_right _ _) (ih.2 v h)

theorem listMin_mem (w : Int) (l : List Int) :
    listMin w l = w ∨ listMin w l ∈ l := by
  induction l with
  | nil => exact Or.inl rfl
  | cons x rest ih =>
    have hx : listMin w (x :: rest) = min x (listMin w rest) := rfl
    by_cases hc : x ≤ listMin w rest
    · right
      rw [hx, min_eq_left hc]
      exact List.mem_cons_self x rest
    · rw [hx, min_eq_right (by omega)]
      rcases ih with h | h
      · exact Or.inl h
      · exact Or.inr (List.mem_cons_of_mem _ h)

/-- Give the first element of weight `a` the weight `b` instead. -/
def replaceFirstW : List (Int × List Char) → Int → Int → List (Int × List Char)
  | [], _, _ => []
  | x :: rest, a, b =>
    if x.1 = a then (b, x.2) :: rest else x :: replaceFirstW rest a b

theorem replaceFirstW_spec (m w Lw : Int) :
    ∀ rest : List (Int × List Char),
      m ∈ rest.map (fun p => p.1) →
      (∀ v ∈ rest.map (fun p => p.1), m ≤ v) →
      m ≤ w →
      (∀ p ∈ rest, (p.2.length : Int) ≤ Lw) →
      (replaceFirstW rest m w).map (fun p => p.2) = rest.map (fun p => p.2) ∧
      List.Perm (m :: (replaceFirstW rest m w).map (fun p => p.1))
        (w :: rest.map (fun p => p.1)) ∧
      m * Lw + codeCost (replaceFirstW rest m w) ≤ w * Lw + codeCost rest := by
  intro rest
  induction rest with
  | nil => intro hm; simp at hm
  | cons x rest ih =>
    intro hm hmin hmw hlen
    by_cases hx : x.1 = m
    · simp only [replaceFirstW, if_pos hx]
      refine ⟨rfl, ?_, ?_⟩
      · simp only [List.map_cons]
        rw [hx]
        exact List.Perm.swap w m _
      · simp only [codeCost, List.map_cons, List.sum_cons]
        have hl : (x.2.length : Int) ≤ Lw := hlen x (List.mem_cons_self _ _)
        have hkey : 0 ≤ (w - m) * (Lw - (x.2.length : Int)) :=
          mul_nonneg (by omega) (by omega)
        rw [← hx]
        nlinarith [hkey]
    · simp only [replaceFirstW, if_neg hx]
      have hm' : m ∈ rest.map (fun p => p.1) := by
        rw [List.map_cons, List.mem_cons] at hm
        rcases hm with h | h
        · exact absurd h.symm hx
        · exact h
      obtain ⟨hc, hp, hco⟩ := ih hm'
        (fun v hv => hmin v (by rw [List.map_cons]; exact List.mem_cons_of_mem _ hv))
        hmw
        (fun p hp => hlen p (List.mem_cons_of_mem _ hp))
      refine ⟨?_, ?_, ?_⟩
      · simp only [List.map_cons]
        rw [hc]
      · simp only [List.map_cons]
        refine (List.Perm.swap x.1 m _).trans ?_
        refine (hp.cons x.1).trans ?_
        exact List.Perm.swap w x.1 _
      · simp only [codeCost, List.map_cons, List.sum_cons] at hco ⊢
        linarith

/-- Swap the smallest weight of a block into its head position; the head
code being longest, the cost does not increase. -/
theorem pullMin (hd : Int × List Char) (rest : List (Int × List Char))
    (hlen : ∀ p ∈ rest, (p.2.length : Int) ≤ (hd.2.length : Int)) :
    ∃ a rest₂,
      rest₂.map (fun p => p.2) = rest.map (fun p => p.2) ∧
      List.Perm (a :: rest₂.map (fun p => p.1))
        (hd.1 :: rest.map (fun p => p.1)) ∧
      (a ≤ hd.1 ∧ ∀ v ∈ rest₂.map (fun p => p.1), a ≤ v) ∧
      codeCost ((a, hd.2) :: rest₂) ≤ codeCost (hd :: rest) := by
  obtain ⟨hle_w, hle_all⟩ := listMin_le hd.1 (rest.map (fun p => p.1))
  rcases listMin_mem hd.1 (rest.map (fun p => p.1)) with hM | hM
  · refine ⟨hd.1, rest, rfl, List.Perm.refl _, ⟨le_rfl, ?_⟩, ?_⟩
    · intro v hv
      have := hle_all v hv
      omega
    · rw [show ((hd.1, hd.2) : Int × List Char) = hd from rfl]
  · obtain ⟨hc, hp, hco⟩ := replaceFirstW_spec (listMin hd.1 (rest.map (fun p => p.1)))
      hd.1 (hd.2.length : Int) rest hM hle_all hle_w hlen
    refine ⟨listMin hd.1 (rest.map (fun p => p.1)),
      replaceFirstW rest (listMin hd.1 (rest.map (fun p => p.1))) hd.1,
      hc, hp, ⟨hle_w, ?_⟩, ?_⟩
    · intro v hv
      have hv2 : v ∈ hd.1 :: rest.map (fun p => p.1) :=
        hp.subset (List.mem_cons_of_mem _ hv)
      rw [List.mem_cons] at hv2
      rcases hv2 with h | h
      · subst h; exact hle_w
      · exact hle_all v h
    · simp only [codeCost, List.map_cons, List.sum_cons]
      simp only [codeCost] at hco
      linarith

/-- Rearrange the weights of a block headed by two longest codes so that the
two smallest weights sit on those codes, without increasing the cost. -/
theorem twoMin (z y : Int × List Char) (R : List (Int × List Char))
    (hzylen : y.2.length = z.2.length)
    (hRlen : ∀ p ∈ R, p.2.length ≤ z.2.length) :
    ∃ a b R₃,
      R₃.map (fun p => p.2) = R.map (fun p => p.2) ∧
      List.Perm (a :: b :: R₃.map (fun p => p.1))
        ((z :: y :: R).map (fun p => p.1)) ∧
      a ≤ b ∧ (∀ v ∈ R₃.map (fun p => p.1), b ≤ v) ∧
      codeCost ((a, z.2) :: (b, y.2) :: R₃) ≤ codeCost (z :: y :: R) := by
  have hlen1 : ∀ p ∈ y :: R, (p.2.length : Int) ≤ (z.2.length : Int) := by
    intro p hp
    rw [List.mem_cons] at hp
    rcases hp with h | h
    · subst h
      rw [hzylen]
    · have := hRlen p h
      omega
  obtain ⟨a, rest₂, hc2, hp2, ⟨haz, hamin⟩, hco2⟩ := pullMin z (y :: R) hlen1
  cases rest₂ with
  | nil => simp at hc2
  | cons q R₂ =>
    rw [List.map_cons, List.map_cons, List.cons.injEq] at hc2
    obtain ⟨hqy, hR₂⟩ := hc2
    have hlen2 : ∀ p ∈ R₂, (p.2.length : Int) ≤ (q.2.length : Int) := by
      intro p hp
      have hpc : p.2 ∈ R₂.map (fun p => p.2) := List.mem_map.mpr ⟨p, hp, rfl⟩
      rw [hR₂] at hpc
      rcases List.mem_map.1 hpc with ⟨r, hr, hrc⟩
      have := hRlen r hr
      rw [hrc] at this
      rw [hqy, hzylen]
      omega
    obtain ⟨b, R₃, hc3, hp3, ⟨hbq, hbmin⟩, hco3⟩ := pullMin q R₂ hlen2
    refine ⟨a, b, R₃, ?_, ?_, ?_, hbmin, ?_⟩
    · rw [hc3, hR₂]
    · refine ((hp3.cons a).trans ?_)
      simp only [List.map_cons] at hp2 ⊢
      exact hp2
    · apply hamin
      simp only [List.map_cons]
      exact hp3.subset (List.mem_cons_self _ _)
    · have e1 : codeCost ((a, z.2) :: (b, y.2) :: R₃)
          = a * (z.2.length : Int) + codeCost ((b, q.2) :: R₃) := by
        simp only [codeCost, List.map_cons, List.sum_cons, hqy]
      have e2 : codeCost ((a, z.2) :: q :: R₂)
          = a * (z.2.length : Int) + codeCost (q :: R₂) := by
        simp only [codeCost, List.map_cons, List.sum_cons]
      rw [e1]
      have h3 : a * (z.2.length : Int) + codeCost ((b, q.2) :: R₃)
          ≤ a * (z.2.length : Int) + codeCost (q :: R₂) := by
        linarith
      refine le_trans h3 ?_
      rw [e2] at hco2
      exact hco2

/-- Replacing a longest sibling pair `p0`/`p1` by their common stem `p`
preserves prefix-freeness, because every other (binary) code would otherwise
extend one of the two siblings. -/
theorem codesPF_merge (p : List Char) (d : Char) (cs : List (List Char))
    (hd : d = '0' ∨ d = '1')
    (hbin : ∀ c ∈ cs, ∀ e ∈ c, e = '0' ∨ e = '1')
    (hpf : CodesPF ((p ++ [d]) :: (p ++ [flipc d]) :: cs)) :
    CodesPF (p :: cs) := by
  rw [CodesPF, List.pairwise_cons] at hpf ⊢
  obtain ⟨h1, hpf2⟩ := hpf
  rw [List.pairwise_cons] at hpf2
  obtain ⟨h2, hpf3⟩ := hpf2
  refine ⟨?_, hpf3⟩
  intro c hc
  have hz := h1 c (List.mem_cons_of_mem _ hc)
  have hy := h2 c hc
  constructor
  · rintro ⟨u, hu⟩
    cases u with
    | nil =>
      rw [List.append_nil] at hu
      subst hu
      exact hz.2 ⟨[d], rfl⟩
    | cons e u' =>
      have he : e = '0' ∨ e = '1' := by
        refine hbin c hc e ?_
        rw [← hu]
        exact List.mem_append_right _ (List.mem_cons_self _ _)
      rcases binary_eq_or_flip d e hd he with h | h
      · subst h
        refine hz.1 ⟨u', ?_⟩
        rw [List.append_assoc, List.singleton_append]
        exact hu
      · subst h
        refine hy.1 ⟨u', ?_⟩
        rw [List.append_assoc, List.singleton_append]
        exact hu
  · rintro ⟨u, hu⟩
    refine hz.2 ⟨u ++ [d], ?_⟩
    rw [← List.append_assoc, hu]


/-- The induction step of the lower bound: with at least two items, either a
longest code can be shortened (its sibling stem is unused) or its exact
sibling occurs, and the two smallest weights can be moved onto the pair and
merged. -/
theorem huffman_step (N : Nat)
    (ih : ∀ J : List (Int × List Char), codeMeasure J ≤ N →
      (∀ p ∈ J, 0 < p.1 ∧ p.2 ≠ [] ∧ ∀ c ∈ p.2, c = '0' ∨ c = '1') →
      CodesPF (J.map (fun p => p.2)) →
      hW (J.map (fun p => p.1)) ≤ codeCost J)
    (I : List (Int × List Char)) (hlen2 : 2 ≤ I.length)
    (hm : codeMeasure I ≤ N + 1)
    (hgood : ∀ p ∈ I, 0 < p.1 ∧ p.2 ≠ [] ∧ ∀ c ∈ p.2, c = '0' ∨ c = '1')
    (hpf : CodesPF (I.map (fun p => p.2))) :
    hW (I.map (fun p => p.1)) ≤ codeCost I := by
  have hIne : I ≠ [] := by
    intro h
    rw [h] at hlen2
    simp at hlen2
  obtain ⟨z, hzI, hzmax⟩ := exists_max_len I hIne
  obtain ⟨hzw, hzne, hzbin⟩ := hgood z hzI
  obtain ⟨pw, d, hzd⟩ := exists_concat z.2 hzne
  have hdb : d = '0' ∨ d = '1' := by
    apply hzbin
    rw [hzd]
    exact List.mem_append_right _ (List.mem_cons_self _ _)
  have hzlen : z.2.length = pw.length + 1 := by
    rw [hzd]
    simp
  obtain ⟨s1, t1, hst1⟩ := List.append_of_mem hzI
  have hpermz : List.Perm I (z :: (s1 ++ t1)) := by
    rw [hst1]
    exact List.perm_middle
  have hEsub : ∀ p ∈ s1 ++ t1, p ∈ I :=
    fun p hp => hpermz.symm.subset (List.mem_cons_of_mem _ hp)
  by_cases hex : ∃ q ∈ I, ∃ u, (pw ++ [flipc d]) ++ u = q.2
  · -- MERGE: the exact sibling of a longest code occurs
    obtain ⟨yq, hyqI, u, hu⟩ := hex
    have hulen : ((pw ++ [flipc d]) ++ u).length = yq.2.length := by rw [hu]
    have hule : u = [] := by
      refine List.eq_nil_of_length_eq_zero ?_
      have hyql : yq.2.length ≤ z.2.length := hzmax yq hyqI
      simp only [List.length_append, List.length_cons, List.length_nil] at hulen
      omega
    subst hule
    rw [List.append_nil] at hu
    have hyz : yq ≠ z := by
      intro h
      subst h
      rw [hzd] at hu
      have h3 := List.append_inj_right hu rfl
      rw [List.cons.injEq] at h3
      exact flipc_ne d hdb h3.1.symm
    have hyE : yq ∈ s1 ++ t1 := by
      have h2 := hpermz.subset hyqI
      rw [List.mem_cons] at h2
      rcases h2 with h2 | h2
      · exact absurd h2 hyz
      · exact h2
    obtain ⟨s2, t2, hst2⟩ := List.append_of_mem hyE
    have hperm2 : List.Perm (s1 ++ t1) (yq :: (s2 ++ t2)) := by
      rw [hst2]
      exact List.perm_middle
    have hperm : List.Perm I (z :: yq :: (s2 ++ t2)) :=
      hpermz.trans (hperm2.cons z)
    have hRsub : ∀ p ∈ s2 ++ t2, p ∈ I := by
      intro p hp
      refine hperm.symm.subset ?_
      exact List.mem_cons_of_mem _ (List.mem_cons_of_mem _ hp)
    have hpfzy : CodesPF (z.2 :: yq.2 :: (s2 ++ t2).map (fun p => p.2)) := by
      have hmp := hperm.map (fun p => p.2)
      rw [List.map_cons, List.map_cons] at hmp
      exact (codesPF_perm hmp).1 hpf
    by_cases hpw : pw = []
    · -- the whole code is one bit: exactly two items remain
      subst hpw
      have hpfzy' : List.Pairwise NoPre
          (z.2 :: yq.2 :: (s2 ++ t2).map (fun p => p.2)) := hpfzy
      rw [List.pairwise_cons] at hpfzy'
      obtain ⟨hz1, hpfzy2⟩ := hpfzy'
      rw [List.pairwise_cons] at hpfzy2
      obtain ⟨hy1, _⟩ := hpfzy2
      have hRnil : s2 ++ t2 = [] := by
        cases hR : s2 ++ t2 with
        | nil => rfl
        | cons q t =>
          exfalso
          have hq : q ∈ s2 ++ t2 := by
            rw [hR]
            exact List.mem_cons_self _ _
          have hqI : q ∈ I := hRsub q hq
          obtain ⟨hqw2, hqne, hqbin⟩ := hgood q hqI
          have hql : q.2.length ≤ 1 := by
            have h8 := hzmax q hqI
            rw [hzlen] at h8
            simpa using h8
          obtain ⟨e, hqe⟩ : ∃ e, q.2 = [e] := by
            cases hq2 : q.2 with
            | nil => exact absurd hq2 hqne
            | cons e t3 =>
              refine ⟨e, ?_⟩
              have h9 : t3 = [] := by
                rw [hq2] at hql
                simp only [List.length_cons] at hql
                exact List.eq_nil_of_length_eq_zero (by omega)
              rw [h9]
          have heb : e = '0' ∨ e = '1' :=
            hqbin e (by rw [hqe]; exact List.mem_cons_self _ _)
          have hqmem : q.2 ∈ (s2 ++ t2).map (fun p => p.2) :=
            List.mem_map.mpr ⟨q, hq, rfl⟩
          rcases binary_eq_or_flip d e hdb heb with h | h
          · refine (hz1 q.2 (List.mem_cons_of_mem _ hqmem)).1 ⟨[], ?_⟩
            rw [List.append_nil, hzd, hqe, h]
            simp
          · refine (hy1 q.2 hqmem).1 ⟨[], ?_⟩
            rw [List.append_nil, ← hu, hqe, h]
            simp
      have hperm' : List.Perm I [z, yq] := by
        rw [hRnil] at hperm
        exact hperm
      have hwmap := hperm'.map (fun p => p.1)
      rw [hW_perm _ _ hwmap, codeCost_perm hperm']
      rw [show ([z, yq].map (fun p => p.1)) = [z.1, yq.1] from rfl, hW_pair]
      simp only [codeCost, List.map_cons, List.map_nil, List.sum_cons,
        List.sum_nil, add_zero]
      have hl1 : (z.2.length : Int) = 1 := by
        rw [hzlen]
        simp
      have hl2 : (yq.2.length : Int) = 1 := by
        rw [← hu]
        simp
      rw [hl1, hl2]
      linarith
    · -- genuine merge of the sibling pair
      have hyzlen : yq.2.length = z.2.length := by
        rw [← hu, hzd]
        simp
      have hRlen : ∀ p ∈ s2 ++ t2, p.2.length ≤ z.2.length :=
        fun p hp => hzmax p (hRsub p hp)
      obtain ⟨a, b, R₃, hcodes, hwperm, hab, hbmin, hcost⟩ :=
        twoMin z yq _ hyzlen hRlen
      have hwpermI : List.Perm (a :: b :: R₃.map (fun p => p.1))
          (I.map (fun p => p.1)) := by
        refine hwperm.trans ?_
        have hmp := (hperm.map (fun p => p.1)).symm
        rw [List.map_cons, List.map_cons] at hmp
        rw [List.map_cons, List.map_cons]
        exact hmp
      have hWm : hW (I.map (fun p => p.1))
          = a + b + hW ((a + b) :: R₃.map (fun p => p.1)) :=
        hW_merge _ a b _ hwpermI.symm hab hbmin
      have hmemw : ∀ v ∈ I.map (fun p => p.1), 0 < v := by
        intro v hv
        rcases List.mem_map.1 hv with ⟨q, hqI, hqv⟩
        rw [← hqv]
        exact (hgood q hqI).1
      have ha0 : 0 < a := hmemw a (hwpermI.subset (List.mem_cons_self _ _))
      have hb0 : 0 < b := hmemw b
        (hwpermI.subset (List.mem_cons_of_mem _ (List.mem_cons_self _ _)))
      have hgood3 : ∀ p ∈ (a + b, pw) :: R₃,
          0 < p.1 ∧ p.2 ≠ [] ∧ ∀ c ∈ p.2, c = '0' ∨ c = '1' := by
        intro p hp
        rw [List.mem_cons] at hp
        rcases hp with h | h
        · subst h
          refine ⟨by omega, hpw, ?_⟩
          intro c hc
          apply hzbin
          rw [hzd]
          exact List.mem_append_left _ hc
        · constructor
          · refine hmemw p.1 (hwpermI.subset ?_)
            exact List.mem_cons_of_mem _
              (List.mem_cons_of_mem _ (List.mem_map.mpr ⟨p, h, rfl⟩))
          · have hpc : p.2 ∈ (s2 ++ t2).map (fun p => p.2) := by
              rw [← hcodes]
              exact List.mem_map.mpr ⟨p, h, rfl⟩
            rcases List.mem_map.1 hpc with ⟨r, hrR, hrc⟩
            have hrI : r ∈ I := hRsub r hrR
            rw [← hrc]
            exact ⟨(hgood r hrI).2.1, (hgood r hrI).2.2⟩
      have hbinR : ∀ c ∈ (s2 ++ t2).map (fun p => p.2),
          ∀ e ∈ c, e = '0' ∨ e = '1' := by
        intro c hc e he
        rcases List.mem_map.1 hc with ⟨r, hrR, hrc⟩
        have hrI : r ∈ I := hRsub r hrR
        rw [← hrc] at he
        exact (hgood r hrI).2.2 e he
      have hpf3 : CodesPF (((a + b, pw) :: R₃).map (fun p => p.2)) := by
        rw [List.map_cons, hcodes]
        refine codesPF_merge pw d _ hdb hbinR ?_
        rw [← hzd, hu]
        exact hpfzy
      have hmeq : codeMeasure R₃ = codeMeasure (s2 ++ t2) := by
        rw [codeMeasure_eq_codes, codeMeasure_eq_codes, hcodes]
      have hmI : codeMeasure I = z.2.length + (yq.2.length +
          codeMeasure (s2 ++ t2)) := by
        rw [codeMeasure_perm hperm]
        simp only [codeMeasure, List.map_cons, List.sum_cons]
      have hm3 : codeMeasure ((a + b, pw) :: R₃) ≤ N := by
        have h5 : codeMeasure ((a + b, pw) :: R₃)
            = pw.length + codeMeasure R₃ := by
          simp only [codeMeasure, List.map_cons, List.sum_cons]
        have h7 : yq.2.length = pw.length + 1 := by rw [hyzlen, hzlen]
        omega
      have hIH := ih _ hm3 hgood3 hpf3
      rw [show (((a + b, pw) :: R₃).map (fun p => p.1))
          = (a + b) :: R₃.map (fun p => p.1) from rfl] at hIH
      rw [hWm]
      have hc3 : codeCost ((a + b, pw) :: R₃)
          = (a + b) * (pw.length : Int) + codeCost R₃ := by
        simp only [codeCost, List.map_cons, List.sum_cons]
      have hc2 : codeCost ((a, z.2) :: (b, yq.2) :: R₃)
          = a * (z.2.length : Int) + b * (yq.2.length : Int) + codeCost R₃ := by
        simp only [codeCost, List.map_cons, List.sum_cons]
        ring
      have hlz : (z.2.length : Int) = (pw.length : Int) + 1 := by omega
      have hly : (yq.2.length : Int) = (pw.length : Int) + 1 := by
        have h7 : yq.2.length = pw.length + 1 := by rw [hyzlen, hzlen]
        omega
      have hccI : codeCost (z :: yq :: (s2 ++ t2)) = codeCost I :=
        (codeCost_perm hperm).symm
      have hfin : a + b + codeCost ((a + b, pw) :: R₃) ≤ codeCost I := by
        rw [← hccI]
        refine le_trans (le_of_eq ?_) hcost
        rw [hc3, hc2, hlz, hly]
        ring
      linarith
  · -- SHRINK: no other code extends the sibling stem
    have hpwne : pw ≠ [] := by
      intro hpw
      have hall : ∀ q ∈ I, q.2 = [d] := by
        intro q hqI
        obtain ⟨hqw2, hqne, hqbin⟩ := hgood q hqI
        have hql : q.2.length ≤ 1 := by
          have h8 := hzmax q hqI
          rw [hzlen, hpw] at h8
          simpa using h8
        obtain ⟨e, hqe⟩ : ∃ e, q.2 = [e] := by
          cases hq2 : q.2 with
          | nil => exact absurd hq2 hqne
          | cons e t3 =>
            refine ⟨e, ?_⟩
            have h9 : t3 = [] := by
              rw [hq2] at hql
              simp only [List.length_cons] at hql
              exact List.eq_nil_of_length_eq_zero (by omega)
            rw [h9]
        have heb : e = '0' ∨ e = '1' :=
          hqbin e (by rw [hqe]; exact List.mem_cons_self _ _)
        rcases binary_eq_or_flip d e hdb heb with h | h
        · rw [hqe, h]
        · exfalso
          refine hex ⟨q, hqI, [], ?_⟩
          rw [List.append_nil, hpw, hqe, h]
          simp
      rcases I with _ | ⟨a0, T0⟩
      · simp at hlen2
      rcases T0 with _ | ⟨a1, T1⟩
      · simp at hlen2
      have hpf2 : List.Pairwise NoPre
          (a0.2 :: a1.2 :: T1.map (fun p => p.2)) := hpf
      rw [List.pairwise_cons] at hpf2
      have h0 := hpf2.1 a1.2 (List.mem_cons_self _ _)
      have e0 : a0.2 = [d] := hall a0 (List.mem_cons_self _ _)
      have e1 : a1.2 = [d] := hall a1
        (List.mem_cons_of_mem _ (List.mem_cons_self _ _))
      exact h0.1 ⟨[], by rw [List.append_nil, e0, e1]⟩
    have hpfz' : List.Pairwise NoPre
        (z.2 :: (s1 ++ t1).map (fun p => p.2)) := by
      have hmp := hpermz.map (fun p => p.2)
      rw [List.map_cons] at hmp
      exact (codesPF_perm hmp).1 hpf
    rw [List.pairwise_cons] at hpfz'
    obtain ⟨hzrel, hpfE⟩ := hpfz'
    have hgood' : ∀ p ∈ (z.1, pw) :: (s1 ++ t1),
        0 < p.1 ∧ p.2 ≠ [] ∧ ∀ c ∈ p.2, c = '0' ∨ c = '1' := by
      intro p hp
      rw [List.mem_cons] at hp
      rcases hp with h | h
      · subst h
        refine ⟨hzw, hpwne, ?_⟩
        intro c hc
        apply hzbin
        rw [hzd]
        exact List.mem_append_left _ hc
      · exact hgood p (hEsub p h)
    have hpf' : CodesPF (((z.1, pw) :: (s1 ++ t1)).map (fun p => p.2)) := by
      rw [List.map_cons]
      show List.Pairwise NoPre (pw :: (s1 ++ t1).map (fun p => p.2))
      rw [List.pairwise_cons]
      refine ⟨?_, hpfE⟩
      intro c hc
      rcases List.mem_map.1 hc with ⟨q, hqE, hqc⟩
      have hnp := hzrel c hc
      constructor
      · rintro ⟨u, hu⟩
        cases u with
        | nil =>
          rw [List.append_nil] at hu
          subst hu
          exact hnp.2 ⟨[d], by rw [hzd]⟩
        | cons e u' =>
          have heb : e = '0' ∨ e = '1' := by
            refine (hgood q (hEsub q hqE)).2.2 e ?_
            rw [hqc, ← hu]
            exact List.mem_append_right _ (List.mem_cons_self _ _)
          rcases binary_eq_or_flip d e hdb heb with h | h
          · subst h
            refine hnp.1 ⟨u', ?_⟩
            rw [hzd, List.append_assoc, List.singleton_append]
            exact hu
          · subst h
            refine hex ⟨q, hEsub q hqE, u', ?_⟩
            rw [List.append_assoc, List.singleton_append, hu, hqc]
      · rintro ⟨u, hu⟩
        exact hnp.2 ⟨u ++ [d], by rw [← List.append_assoc, hu, hzd]⟩
    have hmz : codeMeasure I = z.2.length + codeMeasure (s1 ++ t1) := by
      rw [codeMeasure_perm hpermz]
      simp only [codeMeasure, List.map_cons, List.sum_cons]
    have hm' : codeMeasure ((z.1, pw) :: (s1 ++ t1)) ≤ N := by
      have h5 : codeMeasure ((z.1, pw) :: (s1 ++ t1))
          = pw.length + codeMeasure (s1 ++ t1) := by
        simp only [codeMeasure, List.map_cons, List.sum_cons]
      have h6 : pw ≠ [] := hpwne
      have h7 : 0 < pw.length := List.length_pos.2 h6
      omega
    have hIH := ih _ hm' hgood' hpf'
    have hwperm : List.Perm (((z.1, pw) :: (s1 ++ t1)).map (fun p => p.1))
        (I.map (fun p => p.1)) := by
      rw [List.map_cons]
      have hmp := (hpermz.map (fun p => p.1)).symm
      rw [List.map_cons] at hmp
      exact hmp
    rw [hW_perm _ _ hwperm] at hIH
    refine le_trans hIH ?_
    rw [codeCost_perm hpermz]
    have e1 : codeCost ((z.1, pw) :: (s1 ++ t1))
        = z.1 * (pw.length : Int) + codeCost (s1 ++ t1) := by
      simp only [codeCost, List.map_cons, List.sum_cons]
    have e2 : codeCost (z :: (s1 ++ t1))
        = z.1 * (z.2.length : Int) + codeCost (s1 ++ t1) := by
      simp only [codeCost, List.map_cons, List.sum_cons]
    rw [e1, e2]
    have h1 : (pw.length : Int) ≤ (z.2.length : Int) := by omega
    have h2 := mul_le_mul_of_nonneg_left h1 (le_of_lt hzw)
    linarith

/-- The greedy merge cost of the weights is a lower bound on the cost of any
prefix-free binary code with positive weights. -/
theorem hW_le_codeCost_aux (N : Nat) :
    ∀ I : List (Int × List Char), codeMeasure I ≤ N →
      (∀ p ∈ I, 0 < p.1 ∧ p.2 ≠ [] ∧ ∀ c ∈ p.2, c = '0' ∨ c = '1') →
      CodesPF (I.map (fun p => p.2)) →
      hW (I.map (fun p => p.1)) ≤ codeCost I := by
  induction N with
  | zero =>
    intro I hm hgood _
    cases I with
    | nil => exact le_rfl
    | cons x rest =>
      exfalso
      have h1 : x.2 ≠ [] := (hgood x (List.mem_cons_self _ _)).2.1
      have h2 : 0 < x.2.length := List.length_pos.2 h1
      simp only [codeMeasure, List.map_cons, List.sum_cons] at hm
      omega
  | succ N ih =>
    intro I hm hgood hpf
    rcases I with _ | ⟨x, T⟩
    · exact le_rfl
    rcases T with _ | ⟨x1, R0⟩
    · have h1 : 0 < x.1 := (hgood x (List.mem_cons_self _ _)).1
      have h2 : (0 : Int) ≤ (x.2.length : Int) := Int.natCast_nonneg _
      have h3 : (0 : Int) ≤ x.1 * (x.2.length : Int) :=
        mul_nonneg (by omega) h2
      show (0 : Int) ≤ x.1 * (x.2.length : Int) + 0
      linarith
    · exact huffman_step N ih (x :: x1 :: R0) (by simp) hm hgood hpf

theorem hW_le_codeCost (I : List (Int × List Char))
    (hgood : ∀ p ∈ I, 0 < p.1 ∧ p.2 ≠ [] ∧ ∀ c ∈ p.2, c = '0' ∨ c = '1')
    (hpf : CodesPF (I.map (fun p => p.2))) :
    hW (I.map (fun p => p.1)) ≤ codeCost I :=
  hW_le_codeCost_aux (codeMeasure I) I le_rfl hgood hpf

/-- C9: for every frequency table with at least one symbol — as `read_file`
produces them: positive counts, and symbol values `≥ 0` as the tree code
requires — the constructed code table minimizes the total cost
`Σ frequency · code length` among all assignments of non-empty prefix-free
binary codes to the table's symbols. -/
theorem claim_C9 (file : Option (List Int))
    (hkeys : ∀ p ∈ read_file file, 0 ≤ p.1)
    (hN : 1 ≤ (read_file file).length)
    (g : Int → List Char)
    (hg1 : ∀ p ∈ read_file file, g p.1 ≠ [] ∧ ∀ c ∈ g p.1, c = '0' ∨ c = '1')
    (hg2 : List.Pairwise (fun x y => NoPre (g x) (g y))
      ((read_file file).map Prod.fst)) :
    tableCost (read_file file)
      (fun x =>
        (assocFind (huffman_tree.construct file).encoded_chars x).getD [])
      ≤ tableCost (read_file file) g := by
  have hF : ∀ p ∈ read_file file, 0 < p.2 := by
    intro p hp
    have := read_file_pos file p hp
    omega
  by_cases h2 : 1 < (read_file file).length
  · rw [huffman_table_cost file hkeys h2]
    have hgood : ∀ q ∈ (read_file file).map (fun p => (p.2, g p.1)),
        0 < q.1 ∧ q.2 ≠ [] ∧ ∀ c ∈ q.2, c = '0' ∨ c = '1' := by
      intro q hq
      rcases List.mem_map.1 hq with ⟨p, hp, hpq⟩
      subst hpq
      exact ⟨hF p hp, (hg1 p hp).1, (hg1 p hp).2⟩
    have hpfg : CodesPF (((read_file file).map (fun p => (p.2, g p.1))).map
        (fun q => q.2)) := by
      rw [List.map_map]
      have h3 : List.Pairwise NoPre (((read_file file).map Prod.fst).map g) :=
        List.pairwise_map.2 hg2
      rw [List.map_map] at h3
      exact h3
    have hle := hW_le_codeCost
      ((read_file file).map (fun p => (p.2, g p.1))) hgood hpfg
    have hw1 : (((read_file file).map (fun p => (p.2, g p.1))).map
        (fun q => q.1)) = (read_file file).map (fun p => p.2) := by
      rw [List.map_map]
      rfl
    have hc1 : codeCost ((read_file file).map (fun p => (p.2, g p.1)))
        = tableCost (read_file file) g := by
      simp only [codeCost, tableCost, List.map_map]
      rfl
    rw [hw1, hc1] at hle
    exact hle
  · have h1 : (read_file file).length = 1 := by omega
    rcases hFe : read_file file with _ | ⟨⟨c, v⟩, rest⟩
    · rw [hFe] at h1
      simp at h1
    · have hrest : rest = [] := by
        rw [hFe] at h1
        simp only [List.length_cons] at h1
        exact List.eq_nil_of_length_eq_zero (by omega)
      subst hrest
      have hec := construct_encoded_chars_single file c v hFe
      rw [hec]
      simp only [tableCost, List.map_cons, List.map_nil, List.sum_cons,
        List.sum_nil, add_zero]
      have hfind : assocFind [(c, ['0'])] c = some ['0'] := by
        simp [assocFind]
      rw [hfind]
      have h6 : (((some ['0'] : Option (List Char)).getD []).length : Int) = 1 :=
        rfl
      rw [h6]
      have hv : (1 : Int) ≤ v :=
        read_file_pos file (c, v) (by rw [hFe]; exact List.mem_cons_self _ _)
      have hgc : g c ≠ [] :=
        (hg1 (c, v) (by rw [hFe]; exact List.mem_cons_self _ _)).1
      have hlen : 1 ≤ (g c).length := List.length_pos.2 hgc
      have h4 : (1 : Int) ≤ ((g c).length : Int) := by omega
      exact mul_le_mul_of_nonneg_left h4 (by omega)

/-- Witness for C9 at the source "aab" against the adversary code
`97 ↦ "0"`, `98 ↦ "1"`. -/
theorem claim_C9_witness :
    tableCost (read_file (some [97, 97, 98]))
      (fun x =>
        (assocFind (huffman_tree.construct
          (some [97, 97, 98])).encoded_chars x).getD [])
      ≤ tableCost (read_file (some [97, 97, 98]))
        (fun x => if x = 97 then ['0'] else ['1']) := by
  refine claim_C9 (some [97, 97, 98]) (by decide) (by decide)
    (fun x => if x = 97 then ['0'] else ['1']) (by decide) ?_
  have hFeq : (read_file (some [97, 97, 98])).map Prod.fst = [97, 98] := by
    decide
  rw [hFeq]
  refine List.Pairwise.cons ?_ (List.Pairwise.cons (by simp) List.Pairwise.nil)
  intro b hb
  rw [List.mem_singleton] at hb
  subst hb
  show NoPre ['0'] ['1']
  constructor
  · rintro ⟨u, hu⟩
    injection hu with h1 _
    exact absurd h1 (by decide)
  · rintro ⟨u, hu⟩
    injection hu with h1 _
    exact absurd h1 (by decide)

end Huffman
